import Mathlib

/-!
# Verification of the ue3-config-parser pipeline

A shallow embedding of the `ue3-config-parser` Rust crate
(`src/parse.rs`, `src/check.rs`, `src/check/struct_syntax.rs`).

Conventions of the embedding:
* Source text is a list of bytes (`List Nat`); for ASCII inputs this agrees
  byte-for-byte with Rust's `&str`.  All spans are byte offsets, as in the
  source.  The ASCII-only byte sets used by the code (`' '`, `'\t'`, the sigil
  bytes of the value lexer, ...) cannot occur inside a multi-byte UTF-8
  character, so scanning bytes is faithful to the source's `char` scanning.
  The only approximation: Rust's Unicode-aware `str::trim` is modelled as
  trimming the six ASCII whitespace bytes.
* `usize` arithmetic follows release-mode Rust: subtraction wraps, so a loop
  guard reading `get(i - 1)` with `i = 0` sees `None` and stops.  Places where
  overflow panics in debug builds are noted at the relevant claims.
* Rust panics (out-of-order slice indexing, `unreachable!()`, fuel
  exhaustion of the embedding's bounded recursion) are modelled as
  `Option.none` / `PRes.panic`; all fallible functions return these.
-/

/-- Convert an ASCII string literal to its byte list. -/
def strBytes (s : String) : List Nat := s.data.map Char.toNat

/-- Unchecked slice `text[a..b]`, used only where the source's slice indices
are known in bounds (line spans produced by the splitter). -/
def sliceU (t : List Nat) (a b : Nat) : List Nat := (t.drop a).take (b - a)

/-- Checked slice: `none` models the Rust panic on `&s[a..b]` with `a > b` or
`b > len`. -/
def sliceOk (t : List Nat) (a b : Nat) : Option (List Nat) :=
  if a ≤ b ∧ b ≤ t.length then some (sliceU t a b) else none

/-- `text.as_bytes().get(i)`. -/
def byteAt (t : List Nat) (i : Nat) : Option Nat := t.get? i

/-- The two bytes `' '` and `'\t'` trimmed by the recognizer's loops. -/
def isSpTab (b : Nat) : Bool := b = 32 || b = 9

/-- A `'\r'` or `'\n'` byte (the line terminators). -/
def isNl (b : Nat) : Bool := b = 13 || b = 10

/-- The six ASCII bytes of Rust's `char::is_whitespace`; our model of
`str::trim` removes exactly these. -/
def isWs6 (b : Nat) : Bool := b = 9 || b = 10 || b = 11 || b = 12 || b = 13 || b = 32

/-- Model of `str::trim` (ASCII fragment). -/
def rustTrim (l : List Nat) : List Nat :=
  ((l.dropWhile isWs6).reverse.dropWhile isWs6).reverse

/-- Model of `str::trim_end` (ASCII fragment). -/
def rustTrimEnd (l : List Nat) : List Nat :=
  (l.reverse.dropWhile isWs6).reverse

/-- `line.ends_with(r"\\")`: the last two bytes are `\\`. -/
def endsWithBB (l : List Nat) : Bool := l.reverse.take 2 = [92, 92]

/-- Start positions of every occurrence of the two-byte pattern `\\`,
in increasing order (overlapping occurrences included, as with `str::rfind`).
-/
def positionsBB : List Nat → Nat → List Nat
  | a :: b :: rest, i =>
    (if a = 92 ∧ b = 92 then [i] else []) ++ positionsBB (b :: rest) (i + 1)
  | _, _ => []

/-- `s.rfind(r"\\")`: start of the last occurrence of `\\`. -/
def rfindBB (l : List Nat) : Option Nat := (positionsBB l 0).getLast?

/-! ## Data model (`src/parse.rs`) -/

/-- `Span(start, end)`: half-open byte range. -/
structure Span where
  fst : Nat
  snd : Nat
deriving DecidableEq, Repr

/-- `KvpOperation`. -/
inductive KvpOp where
  | set
  | insert
  | insertUnique
  | remove
  | clear
deriving DecidableEq, Repr

/-- `impl From<u8> for KvpOperation`. -/
def byteToOp (b : Nat) : KvpOp :=
  if b = 43 then .insertUnique          -- '+'
  else if b = 46 then .insert           -- '.'
  else if b = 45 then .remove           -- '-'
  else if b = 33 then .clear            -- '!'
  else .set

/-- `Directive`: the three non-blank directive kinds. -/
inductive Directive where
  | sectionHeader (span objName : Span)
  | kvp (span ident value : Span) (op : KvpOp)
  | unknown (span : Span) (prevSpan : Option Span)
deriving DecidableEq, Repr

/-- The top-level `span` field of a directive. -/
def Directive.dspan : Directive → Span
  | .sectionHeader s _ => s
  | .kvp s _ _ _ => s
  | .unknown s _ => s

/-! ## Line splitter (`Directives::from_text`, first block) -/

/-- One iteration per produced line: find the next `\r`/`\n`, emit the line
span, then consume the whole run of `\r`/`\n` separator bytes.  `fuel`
bounds the recursion; the offset strictly increases each step, so
`text.length + 1` is always enough. -/
def splitLinesAux (text : List Nat) (offset : Nat) : Nat → List Span
  | 0 => []
  | fuel + 1 =>
    if text.length ≤ offset then []
    else
      match List.findIdx? isNl (text.drop offset) with
      | some p =>
        let run := ((text.drop (offset + p)).takeWhile isNl).length
        Span.mk offset (offset + p) :: splitLinesAux text (offset + p + run) fuel
      | none => [Span.mk offset text.length]

/-- The line spans of the input, as computed by `from_text`'s first block. -/
def splitLines (text : List Nat) : List Span :=
  splitLinesAux text 0 (text.length + 1)

/-! ## Directive recognizer (`Directives::from_text`, second block) -/

/-- The multi-line-continuation loop: while the current line ends in the
two bytes `\\` and a next line exists, absorb the next line.  Returns the
final line index and the final `value_span.1`. -/
def absorb (text : List Nat) (lines : List Span) (lIndex : Nat)
    (testLine : List Nat) (valueEnd : Nat) : Nat → Nat × Nat
  | 0 => (lIndex, valueEnd)
  | fuel + 1 =>
    if endsWithBB testLine ∧ lIndex + 1 < lines.length then
      match lines.get? (lIndex + 1) with
      | some nextSpan =>
        absorb text lines (lIndex + 1) (sliceU text nextSpan.fst nextSpan.snd)
          nextSpan.snd fuel
      | none => (lIndex, valueEnd)
    else (lIndex, valueEnd)

/-- Release-semantics model of
`while let Some(b' ' | b'\t') = text.as_bytes().get(pos - 1) { pos -= 1 }`:
decrement while the preceding byte is a space or tab; at `pos = 0` the
wrapped index reads `None` and the loop stops. -/
def rightTrimRelease (text : List Nat) (pos : Nat) : Nat :=
  pos - ((text.take pos).reverse.takeWhile isSpTab).length

/-- The directive loop of `from_text`, one line (plus absorbed
continuations) per step. -/
def dirsAux (text : List Nat) (lines : List Span) (lIndex : Nat) :
    Nat → List Directive
  | 0 => []
  | fuel + 1 =>
    match lines.get? lIndex with
    | none => []
    | some span =>
      let line := sliceU text span.fst span.snd
      if line.head? = some 91 ∧ line.getLast? = some 93 then
        Directive.sectionHeader span ⟨span.fst + 1, span.snd - 1⟩ ::
          dirsAux text lines (lIndex + 1) fuel
      else
        let t0 := span.fst + ((text.drop span.fst).takeWhile isSpTab).length
        let trimLine := sliceU text t0 span.snd
        match List.findIdx? (· = 61) trimLine with
        | some p =>
          let prop1 := rightTrimRelease text (t0 + p)
          let op := byteToOp ((byteAt text t0).getD 0)
          let res := absorb text lines lIndex trimLine span.snd (lines.length + 1)
          let identStart := if op = KvpOp.set then t0 else t0 + 1
          Directive.kvp ⟨identStart, res.2⟩ ⟨identStart, prop1⟩
              ⟨t0 + p + 1, res.2⟩ op ::
            dirsAux text lines (res.1 + 1) fuel
        | none =>
          if line.all (fun c => isNl c || isSpTab c) then
            dirsAux text lines (lIndex + 1) fuel
          else
            Directive.unknown span
                (if lIndex = 0 then none else lines.get? (lIndex - 1)) ::
              dirsAux text lines (lIndex + 1) fuel

/-- `Directives::from_text` (the directive list; the text field is the input
itself). -/
def from_text (text : List Nat) : List Directive :=
  dirsAux text (splitLines text) 0 (text.length + 2)

/-! ## Value lexer (`src/check/struct_syntax.rs`) -/

/-- `Token`; `text`/`quoted` carry the source slice like the Rust `&str`
payloads. -/
inductive Token where
  | lparen
  | rparen
  | lbrack
  | rbrack
  | comma
  | eq
  | semi
  | text (s : List Nat)
  | quoted (s : List Nat)
deriving DecidableEq, Repr

/-- The eight sigil bytes that terminate a `Text` run and (apart from `"`)
also a `Quoted` run: `( ) [ ] , = " ;`. -/
def isSigil (b : Nat) : Bool :=
  b = 40 || b = 41 || b = 91 || b = 93 || b = 44 || b = 61 || b = 34 || b = 59

/-- Lexer state: `pos` is the `CharIndices` cursor, `lastPos` the
`last_pos` field. -/
structure LexState where
  pos : Nat
  lastPos : Nat
deriving DecidableEq, Repr

/-- First index `≥ p` whose byte satisfies `f`. -/
def findFrom (text : List Nat) (p : Nat) (f : Nat → Bool) : Option Nat :=
  (List.findIdx? f (text.drop p)).map (· + p)

/-- `Lexer::continue_string`, entered after consuming the byte `c` at
position `start`.  Scans to the first following sigil byte: a closing `"`
of a quoted token is included and consumed; any other sigil ends the token
exclusively; end of input ends it there.  Returns the token and the new
cursor. -/
def continue_string (text : List Nat) (start : Nat) (c : Nat) : Token × Nat :=
  let quoted := c = 34
  match findFrom text (start + 1) isSigil with
  | some j =>
    if quoted ∧ byteAt text j = some 34 then
      (Token.quoted (sliceU text start (j + 1)), j + 1)
    else if quoted then (Token.quoted (sliceU text start j), j)
    else (Token.text (sliceU text start j), j)
  | none =>
    if quoted then (Token.quoted (sliceU text start text.length), text.length)
    else (Token.text (sliceU text start text.length), text.length)

/-- `Lexer::next`: skip `' '`/`'\t'` (updating `last_pos` before each
consumed char), then classify the next byte. -/
def lexNext (text : List Nat) (s : LexState) : Option Token × LexState :=
  let p := s.pos + ((text.drop s.pos).takeWhile isSpTab).length
  match byteAt text p with
  | none => (none, ⟨p, text.length⟩)
  | some b =>
    if b = 40 then (some Token.lparen, ⟨p + 1, p⟩)
    else if b = 41 then (some Token.rparen, ⟨p + 1, p⟩)
    else if b = 91 then (some Token.lbrack, ⟨p + 1, p⟩)
    else if b = 93 then (some Token.rbrack, ⟨p + 1, p⟩)
    else if b = 44 then (some Token.comma, ⟨p + 1, p⟩)
    else if b = 61 then (some Token.eq, ⟨p + 1, p⟩)
    else if b = 59 then (some Token.semi, ⟨p + 1, p⟩)
    else
      let r := continue_string text p b
      (some r.1, ⟨r.2, p⟩)

/-! ## Value AST (`PropValue`, `PropName`, `Struct`, `Array`) -/

/-- `PropName`: name slice plus optional `u32` index. -/
structure PropName where
  name : List Nat
  idx : Option Nat
deriving DecidableEq, Repr

/-- `PropValue`; `strct`/`arr` model `Struct`/`Array`. -/
inductive PropValue where
  | terminal (s : List Nat)
  | strct (children : List (PropName × PropValue))
  | arr (elems : List PropValue)
  | empty

/-- `u32::from_str` (digits with optional leading `+`, value `< 2^32`). -/
def digitsToNat : List Nat → Option Nat
  | [] => none
  | l =>
    if l.all (fun b => 48 ≤ b && b ≤ 57) then
      some (l.foldl (fun acc b => acc * 10 + (b - 48)) 0)
    else none

/-- `t.parse::<u32>()` succeeds. -/
def parse_u32 (l : List Nat) : Option Nat :=
  let body := match l with
    | 43 :: r => r
    | _ => l
  match digitsToNat body with
  | some n => if n < 4294967296 then some n else none
  | none => none

/-! ## Value grammar recursive descent -/

/-- Parser state: lexer state plus the one-token `peeked` buffer. -/
structure PState where
  lex : LexState
  peeked : Option Token
deriving DecidableEq, Repr

/-- `Parser::peek`. -/
def ppeek (text : List Nat) (s : PState) : Option Token × PState :=
  match s.peeked with
  | some t => (some t, s)
  | none =>
    let r := lexNext text s.lex
    (r.1, ⟨r.2, r.1⟩)

/-- `Parser::next`. -/
def pnext (text : List Nat) (s : PState) : Option Token × PState :=
  match s.peeked with
  | some t => (some t, ⟨s.lex, none⟩)
  | none =>
    let r := lexNext text s.lex
    (r.1, ⟨r.2, none⟩)

/-- `Parser::pos` (= `lexer.last_pos`). -/
def ppos (s : PState) : Nat := s.lex.lastPos

/-- Outcome of a parse step: success with the new state, a `ParseError`
(position + message), or a Rust panic (`unreachable!()` or exhausted
fuel). -/
inductive PRes (α : Type) where
  | ok (val : α) (s : PState)
  | err (pos : Nat) (msg : String)
  | panic

mutual

/-- `parse_struct`'s loop, one key-value child per fuel step.
`visitTok` is the token holding the property name (`unreachable!()` —
modelled as `panic` — on anything but `Text`, which `parse_array` does
reach). -/
def parse_struct (text : List Nat) (s0 : PState) (visitTok : Token)
    (acc : List (PropName × PropValue)) :
    Nat → PRes (List (PropName × PropValue))
  | 0 => .panic
  | fuel + 1 =>
    match visitTok with
    | Token.text nm =>
      -- optional `[index]`
      let pk := ppeek text s0
      let idxRes : PRes (Option Nat) :=
        match pk.1 with
        | some Token.lbrack =>
          let c1 := pnext text pk.2     -- consume `[`
          let c2 := pnext text c1.2
          match c2.1 with
          | some (Token.text t) =>
            match parse_u32 t with
            | some idx =>
              let c3 := pnext text c2.2
              match c3.1 with
              | some Token.rbrack => .ok (some idx) c3.2
              | _ => .err (ppos c3.2) "Expected `]`"
            | none => .err (ppos c2.2) "Expected array index"
          | _ => .err (ppos c2.2) "Expected array index"
        | _ => .ok none pk.2
      match idxRes with
      | .err p m => .err p m
      | .panic => .panic
      | .ok idx s1 =>
        let c4 := pnext text s1
        match c4.1 with
        | some Token.eq =>
          let c5 := pnext text c4.2
          let valRes : PRes PropValue :=
            match c5.1 with
            | some (Token.text v) => .ok (PropValue.terminal v) c5.2
            | some (Token.quoted v) => .ok (PropValue.terminal v) c5.2
            | some Token.lparen => parse_struct_or_array text c5.2 fuel
            | _ => .err (ppos c5.2) "Expected `(` or value"
          match valRes with
          | .err p m => .err p m
          | .panic => .panic
          | .ok v s2 =>
            let children := acc ++ [(PropName.mk nm idx, v)]
            let c6 := pnext text s2
            match c6.1 with
            | some Token.comma =>
              let c7 := pnext text c6.2
              match c7.1 with
              | some Token.rparen => .ok children c7.2
              | some (Token.text nm') =>
                parse_struct text c7.2 (Token.text nm') children fuel
              | _ => .err (ppos c7.2) "Expected `)` or name"
            | some Token.rparen => .ok children c6.2
            | _ => .err (ppos c6.2) "Expected `,` or `)`"
        | _ => .err (ppos c4.2) "Expected `=`"
    | _ => .panic  -- unreachable!() in the source

/-- `parse_array`; `exTok` is the first token after the opening `(` and is
(faithfully to the source) also re-used for every later `LParen` element. -/
def parse_array (text : List Nat) (s0 : PState) (exTok : Token) :
    Nat → PRes (List PropValue)
  | 0 => .panic
  | fuel + 1 =>
    let firstRes : PRes (List PropValue) :=
      match exTok with
      | Token.text s => .ok [PropValue.terminal s] s0
      | Token.quoted s => .ok [PropValue.terminal s] s0
      | Token.lparen =>
        match parse_struct text s0 exTok [] fuel with
        | .ok ch s' => .ok [PropValue.strct ch] s'
        | .err p m => .err p m
        | .panic => .panic
      | _ => .panic  -- unreachable!() in the source
    match firstRes with
    | .err p m => .err p m
    | .panic => .panic
    | .ok elems s1 => parse_array_loop text s1 exTok elems fuel

/-- The comma-separated tail of `parse_array`'s loop. -/
def parse_array_loop (text : List Nat) (s1 : PState) (exTok : Token)
    (elems : List PropValue) : Nat → PRes (List PropValue)
  | 0 => .panic
  | fuel + 1 =>
    let pk := ppeek text s1
    match pk.1 with
    | some Token.comma =>
      let c1 := pnext text pk.2
      let c2 := pnext text c1.2
      match c2.1 with
      | some Token.rparen => .ok elems c2.2
      | some (Token.text s) =>
        parse_array_loop text c2.2 exTok (elems ++ [PropValue.terminal s]) fuel
      | some (Token.quoted s) =>
        parse_array_loop text c2.2 exTok (elems ++ [PropValue.terminal s]) fuel
      | some Token.lparen =>
        match parse_struct text c2.2 exTok [] fuel with
        | .ok ch s' =>
          parse_array_loop text s' exTok (elems ++ [PropValue.strct ch]) fuel
        | .err p m => .err p m
        | .panic => .panic
      | _ => .err (ppos c2.2) "expected value"
    | some Token.rparen =>
      let c1 := pnext text pk.2
      .ok elems c1.2
    | _ => .err (ppos pk.2) "expected `,` or `(`"

/-- `parse_struct_or_array`: disambiguate the production after an inner
`(`. -/
def parse_struct_or_array (text : List Nat) (s0 : PState) :
    Nat → PRes PropValue
  | 0 => .panic
  | fuel + 1 =>
    let c1 := pnext text s0
    match c1.1 with
    | some Token.rparen => .ok PropValue.empty c1.2
    | none => .err (ppos c1.2) "Expected name, value, or `)`"
    | some tok =>
      let pk := ppeek text c1.2
      match tok, pk.1 with
      | Token.text _, some Token.eq | Token.text _, some Token.lbrack =>
        match parse_struct text pk.2 tok [] fuel with
        | .ok ch s' => .ok (PropValue.strct ch) s'
        | .err p m => .err p m
        | .panic => .panic
      | Token.text _, some Token.comma | Token.text _, some Token.rparen
      | Token.quoted _, some Token.comma | Token.quoted _, some Token.rparen =>
        match parse_array text pk.2 tok fuel with
        | .ok es s' => .ok (PropValue.arr es) s'
        | .err p m => .err p m
        | .panic => .panic
      | Token.lparen, some (Token.text _) | Token.lparen, some Token.rparen =>
        match parse_array text pk.2 tok fuel with
        | .ok es s' => .ok (PropValue.arr es) s'
        | .err p m => .err p m
        | .panic => .panic
      | _, _ => .err (ppos pk.2) "Expected key-value pair or array value`"

end

/-- Top-level `parse`: `(` then a `Text` property name then the struct
body. -/
def parseTop (text : List Nat) (fuel : Nat) :
    PRes (List (PropName × PropValue)) :=
  let s0 : PState := ⟨⟨0, 0⟩, none⟩
  let c1 := pnext text s0
  match c1.1 with
  | some Token.lparen =>
    let c2 := pnext text c1.2
    match c2.1 with
    | some (Token.text nm) => parse_struct text c2.2 (Token.text nm) [] fuel
    | _ => .err (ppos c2.2) "Expected property name"
  | _ => .err (ppos c1.2) "Expected `(`"

/-! ## Error model and identifier shapes (`src/check.rs`) -/

/-- `ErrorKind` (the `SlashSlashComent` spelling is the source's). -/
inductive ErrorKind where
  | invalidIdent
  | malformedHeader
  | spaceAfterMultiline
  | slashSlashComent
  | badValue
  | custom (msg : String)
  | other
deriving DecidableEq, Repr

/-- `ReportedError`. -/
structure ReportedError where
  kind : ErrorKind
  span : Span
deriving DecidableEq, Repr

/-- `DiagResult`; `noMatch` models the Rust `DiagResult::None`. -/
inductive DiagResult where
  | ok
  | noMatch
  | err (errs : List ReportedError)
deriving DecidableEq, Repr

/-- ASCII letter. -/
def isAlphaB (b : Nat) : Bool := (65 ≤ b && b ≤ 90) || (97 ≤ b && b ≤ 122)

/-- ASCII digit. -/
def isDigitB (b : Nat) : Bool := 48 ≤ b && b ≤ 57

/-- Letter, digit or `_` (the `[A-Za-z0-9_]` class). -/
def isAlnumU (b : Nat) : Bool := isAlphaB b || isDigitB b || b = 95

/-- The `IDENT` regex `^[A-Za-z][A-Za-z0-9_]*$`. -/
def identMatch : List Nat → Bool
  | [] => false
  | c :: r => isAlphaB c && r.all isAlnumU

/-- The index alternative `(0|[1-9][0-9]*)`: no leading zeros. -/
def numIndexMatch : List Nat → Bool
  | [] => false
  | c :: r =>
    if c = 48 then r = [] else (49 ≤ c && c ≤ 57) && r.all isDigitB

/-- A bracketed index body: `rest` must be an index followed by the single
closing byte `closeB`. -/
def bracketBody (rest : List Nat) (closeB : Nat) : Bool :=
  match rest.reverse with
  | [] => false
  | d :: mid => d = closeB && numIndexMatch mid.reverse

/-- The optional `KEY` suffix `(\[idx\]|\(idx\))?` checked against whatever
follows the maximal `[A-Za-z0-9_]*` run. -/
def keySuffixOk (s : List Nat) : Bool :=
  match s with
  | [] => true
  | c :: rest =>
    if c = 91 then bracketBody rest 93
    else if c = 40 then bracketBody rest 41
    else false

/-- The `KEY` regex
`^[A-Za-z][A-Za-z0-9_]*(\[(0|[1-9][0-9]*)\]|\((0|[1-9][0-9]*)\))?$`.
The character classes are disjoint from `[`/`(`, so splitting at the maximal
alphanumeric run is equivalent to the regex. -/
def keyMatch (l : List Nat) : Bool :=
  match l with
  | [] => false
  | c :: _ => isAlphaB c && keySuffixOk (l.dropWhile isAlnumU)

/-- The `OBJECT` regex
`^[A-Za-z][A-Za-z0-9_]*([ \.][A-Za-z][A-Za-z0-9_]*)?$`. -/
def objectMatch (l : List Nat) : Bool :=
  match l with
  | [] => false
  | c :: _ =>
    isAlphaB c &&
      match l.dropWhile isAlnumU with
      | [] => true
      | d :: r2 => (d = 32 || d = 46) && identMatch r2

/-! ## Value-shape guessers (`matches_bool` / `matches_num` /
`matches_ident`) -/

/-- `u8::to_ascii_lowercase`. -/
def lowerB (b : Nat) : Nat := if 65 ≤ b ∧ b ≤ 90 then b + 32 else b

/-- `matches_bool`: case-insensitive `true`/`false`. -/
def matches_bool (l : List Nat) : Bool :=
  l.map lowerB = strBytes "true" || l.map lowerB = strBytes "false"

/-- `text.parse::<i32>()` succeeds: optional sign, digits, value in range. -/
def parse_i32_ok (l : List Nat) : Bool :=
  match l with
  | 43 :: r =>
    match digitsToNat r with
    | some n => n ≤ 2147483647
    | none => false
  | 45 :: r =>
    match digitsToNat r with
    | some n => n ≤ 2147483648
    | none => false
  | _ =>
    match digitsToNat l with
    | some n => n ≤ 2147483647
    | none => false

/-- A nonempty all-digit run (for float exponents). -/
def digitsNonempty (l : List Nat) : Bool := !l.isEmpty && l.all isDigitB

/-- Float mantissa: digits with at most one `.` and at least one digit. -/
def mantissaOk (m : List Nat) : Bool :=
  m.all (fun b => isDigitB b || b = 46) && m.count 46 ≤ 1 && m.any isDigitB

/-- Float exponent body after `e`/`E`: optional sign then digits. -/
def exponentOk (e : List Nat) : Bool :=
  match e with
  | 43 :: r => digitsNonempty r
  | 45 :: r => digitsNonempty r
  | _ => digitsNonempty e

/-- `text.parse::<f32>()` succeeds (`f32::from_str` grammar: optional sign,
then `inf`/`infinity`/`nan` case-insensitively or mantissa with optional
exponent; never fails on out-of-range values). -/
def parse_f32_ok (l : List Nat) : Bool :=
  let body := match l with
    | 43 :: r => r
    | 45 :: r => r
    | _ => l
  let low := body.map lowerB
  if low = strBytes "inf" || low = strBytes "infinity" || low = strBytes "nan"
  then true
  else
    match List.findIdx? (fun b => lowerB b = 101) body with
    | some k => mantissaOk (body.take k) && exponentOk (body.drop (k + 1))
    | none => mantissaOk body

/-- `matches_num`. -/
def matches_num (l : List Nat) : Bool := parse_i32_ok l || parse_f32_ok l

/-- `matches_ident`. -/
def matches_ident (l : List Nat) : Bool := identMatch l

/-! ## Per-directive checks (`src/check.rs`) -/

/-- `try_report_comment`: trimmed text starting with `;` is a comment
(`Ok`), with `//` a `SlashSlashComent` error, otherwise no opinion. -/
def try_report_comment (txt : List Nat) (sp : Span) : DiagResult :=
  let t := rustTrim txt
  if t.head? = some 59 then .ok
  else if t.take 2 = [47, 47] then .err [⟨.slashSlashComent, sp⟩]
  else .noMatch

/-- The prefix inspected by `try_report_section_error`: the line up to a
`;` comment (if any), trimmed. -/
def sectionPre (line : List Nat) : List Nat :=
  match List.findIdx? (· = 59) line with
  | some p => rustTrim (line.take p)
  | none => rustTrim line

/-- `try_report_section_error`: after cutting a `;` comment and trimming,
a line bracketed by `[`...`]` is a malformed header. -/
def try_report_section_error (line : List Nat) (sp : Span) : DiagResult :=
  if (sectionPre line).head? = some 91 ∧ (sectionPre line).getLast? = some 93
  then .err [⟨.malformedHeader, sp⟩]
  else .noMatch

/-- `SimpleSyntaxValidator::visit_section_header`. -/
def visit_section_header (txt : List Nat) (sp : Span) : DiagResult :=
  if objectMatch txt then .ok else .err [⟨.invalidIdent, sp⟩]

/-- `SimpleSyntaxValidator::visit_unknown`. -/
def visit_unknown (txt : List Nat) (sp : Span) : DiagResult :=
  match try_report_comment txt sp with
  | .ok => .ok
  | r1 =>
    let e1 := match r1 with
      | .err e => e
      | _ => []
    match try_report_section_error txt sp with
    | .ok => .ok
    | r2 =>
      let e2 := match r2 with
        | .err e => e
        | _ => []
      if (e1 ++ e2).isEmpty then .err [⟨.other, sp⟩] else .err (e1 ++ e2)

/-- The continuation-collapsing loop of `validate_property_text`: splice out
`\\` pairs that directly precede a newline, replacing them and the following
`\t`/`\r`/`\n` run with spaces.  `none` models the Rust panic when the
trimmed range has `start > end` (all-whitespace value text). -/
def spliceLoop (txt : List Nat) (a b : Nat) (acc : List Nat) :
    Nat → Option (List Nat)
  | 0 => none
  | fuel + 1 =>
    match sliceOk txt a b with
    | none => none
    | some seg =>
      match List.findIdx? isNl seg with
      | some eol =>
        if 2 ≤ a + eol ∧ byteAt txt (a + eol - 2) = some 92 ∧
            byteAt txt (a + eol - 1) = some 92 then
          let run := ((txt.drop (a + eol)).takeWhile
            (fun c => c = 9 || c = 13 || c = 10)).length
          spliceLoop txt (a + eol + run) b
            (acc ++ sliceU txt a (a + eol - 2) ++ [32, 32] ++
              List.replicate run 32) fuel
        else some (acc ++ seg)
      | none => some (acc ++ seg)

/-- `validate_property_text`; `none` models a panic. -/
def validate_property_text (txt : List Nat) (sp : Span) :
    Option DiagResult :=
  if txt = [] then some .ok
  else
    let a := (txt.takeWhile isSpTab).length
    let b := txt.length - (txt.reverse.takeWhile isSpTab).length
    match spliceLoop txt a b [] (txt.length + 1) with
    | none => none
    | some reduced =>
      if reduced.head? = some 34 then some .noMatch
      else if matches_bool reduced then some .ok
      else if matches_num reduced then some .ok
      else if matches_ident reduced then some .ok
      else if reduced.head? = some 40 then
        match parseTop reduced (reduced.length + 2) with
        | .ok _ _ => some .ok
        | .err pos msg =>
          some (.err [⟨.custom msg, ⟨sp.fst + pos, sp.snd⟩⟩])
        | .panic => none
      else some (.err [⟨.badValue, ⟨sp.fst, sp.snd⟩⟩])

/-- `SimpleSyntaxValidator::visit_kvp`; `none` models a panic inside the
value validation. -/
def visit_kvp (prop : List Nat) (propSpan : Span) (txt : List Nat)
    (txtSpan : Span) : Option DiagResult :=
  let errs0 : Option (List ReportedError) :=
    if keyMatch prop then some []
    else
      match try_report_comment prop propSpan with
      | .ok => none                       -- early `return DiagResult::Ok`
      | .noMatch => some [⟨.invalidIdent, propSpan⟩]
      | .err e => some e
  match errs0 with
  | none => some .ok
  | some errs =>
    match validate_property_text txt txtSpan with
    | none => none
    | some (.err more) => some (.err (errs ++ more))
    | some r => if errs.isEmpty then some r else some (.err errs)

/-! ## The validator walk (`Directives::validate` with
`SimpleSyntaxValidator`) -/

/-- The `SpaceAfterMultiline` follow-up check run after an `Unknown`
directive produced errors. -/
def samFollowUp (text : List Nat) (sp : Span) (prev : Option Span)
    (e : List ReportedError) : Option (List ReportedError) :=
  match prev with
  | none => some e
  | some pv =>
    match sliceOk text pv.fst pv.snd with
    | none => none
    | some prevLine =>
      if endsWithBB prevLine then some e
      else
        match rfindBB (rustTrimEnd prevLine) with
        | some beg =>
          some (e ++ [⟨.spaceAfterMultiline, ⟨pv.fst + beg, sp.snd⟩⟩])
        | none => some e

/-- The loop body of `validate` for one directive: the errors this
directive appends to the flat list (`none` models a panic). -/
def chunkFor (text : List Nat) (d : Directive) :
    Option (List ReportedError) :=
  match d with
  | .sectionHeader _ objName =>
    match sliceOk text objName.fst objName.snd with
    | none => none
    | some t =>
      match visit_section_header t objName with
      | .err e => some e
      | _ => some []
  | .kvp _ ident value _ =>
    match sliceOk text ident.fst ident.snd with
    | none => none
    | some ip =>
      match sliceOk text value.fst value.snd with
      | none => none
      | some vp =>
        match visit_kvp ip ident vp value with
        | none => none
        | some (.err e) => some e
        | some _ => some []
  | .unknown sp prev =>
    match sliceOk text sp.fst sp.snd with
    | none => none
    | some t =>
      match visit_unknown t sp with
      | .err e => samFollowUp text sp prev e
      | _ => some []

/-- The `for d in &self.directives` loop with its `errs` accumulator. -/
def validateLoop (text : List Nat) : List Directive →
    List ReportedError → Option (List ReportedError)
  | [], acc => some acc
  | d :: rest, acc =>
    match chunkFor text d with
    | none => none
    | some c => validateLoop text rest (acc ++ c)

/-- `Directives::from_text(text).validate(&SimpleSyntaxValidator)`;
`none` models a panic anywhere in the pipeline. -/
def validateAll (text : List Nat) : Option (List ReportedError) :=
  validateLoop text (from_text text) []

/-! ## Derived notions used by the statements -/

/-- Run the value lexer to completion, collecting the token stream. -/
def lexAllAux (text : List Nat) (s : LexState) : Nat → List Token
  | 0 => []
  | fuel + 1 =>
    match lexNext text s with
    | (some t, s') => t :: lexAllAux text s' fuel
    | (none, _) => []

/-- The token stream of a value text. -/
def lexAll (text : List Nat) : List Token :=
  lexAllAux text ⟨0, 0⟩ (text.length + 1)

/-- The twelve parse-error messages that occur literally in the value
parser. -/
def pmsgs : List String :=
  ["Expected property name", "Expected `(`", "Expected `]`",
   "Expected array index", "Expected `=`", "Expected `(` or value",
   "Expected `,` or `)`", "Expected `)` or name", "expected `,` or `(`",
   "expected value", "Expected name, value, or `)`",
   "Expected key-value pair or array value`"]

/-- The message the specification attributes to a dangling trailing
continuation (two backslashes before the space): no code path produces
it. -/
def trailingMsg : String := "Trailing \\\\ without following line"

/-- Whether byte index `i` lies inside some directive's top-level span. -/
def coveredBy (ds : List Directive) (i : Nat) : Bool :=
  ds.any (fun d => decide (d.dspan.fst ≤ i) && decide (i < d.dspan.snd))

/-- Gap bytes the recognizer may leave between directive spans: whitespace
(space, tab, CR, LF) or one of the four operation sigils `+ . - !`. -/
def isGapByte (b : Nat) : Bool :=
  isSpTab b || isNl b || b = 43 || b = 46 || b = 45 || b = 33

/-- Reassemble the input from a cursor: the gap before each span, the
span's slice, then the rest; the tail gap runs to the end of the text. -/
def reassemble (text : List Nat) (cursor : Nat) : List Span → List Nat
  | [] => sliceU text cursor text.length
  | s :: rest =>
    sliceU text cursor s.fst ++ sliceU text s.fst s.snd ++
      reassemble text s.snd rest

/-- The start of line `k`, or the text length when no such line exists:
the cursor from which the directive loop still has bytes to account for. -/
def lineStartD (text : List Nat) (lines : List Span) (k : Nat) : Nat :=
  match lines.get? k with
  | some s => s.fst
  | none => text.length

/-! ## General list helper lemmas -/

theorem findIdx?_some_spec {p : Nat → Bool} :
    ∀ (l : List Nat) (k : Nat), List.findIdx? p l = some k →
      (∃ b, l.get? k = some b ∧ p b = true) ∧
        ∀ j b, j < k → l.get? j = some b → p b = false := by
  intro l
  induction l with
  | nil => intro k h; simp [List.findIdx?] at h
  | cons x xs ih =>
    intro k h
    rw [List.findIdx?_cons] at h
    by_cases hx : p x
    · simp [hx] at h
      subst h
      exact ⟨⟨x, rfl, hx⟩, fun j b hj => by omega⟩
    · simp [hx, List.findIdx?_succ] at h
      obtain ⟨k', hk', rfl⟩ := h
      obtain ⟨⟨b, hb, hpb⟩, hlt⟩ := ih k' hk'
      refine ⟨⟨b, by simpa using hb, hpb⟩, ?_⟩
      intro j c hj hc
      match j with
      | 0 =>
        simp at hc
        simp [← hc, hx]
      | j + 1 =>
        exact hlt j c (by omega) (by simpa using hc)

theorem findIdx?_none_spec {p : Nat → Bool} (l : List Nat)
    (h : List.findIdx? p l = none) :
    ∀ j b, l.get? j = some b → p b = false := by
  intro j b hj
  have hmem : b ∈ l := List.get?_mem hj
  exact (List.findIdx?_eq_none_iff.mp h) b hmem

theorem takeWhile_boundary {p : Nat → Bool} :
    ∀ (l : List Nat) b, l.get? (l.takeWhile p).length = some b →
      p b = false := by
  intro l
  induction l with
  | nil => intro b h; simp at h
  | cons x xs ih =>
    intro b h
    by_cases hx : p x = true
    · rw [List.takeWhile_cons, if_pos hx] at h
      simp only [List.length_cons, List.get?_cons_succ] at h
      exact ih b h
    · rw [List.takeWhile_cons, if_neg hx] at h
      simp only [List.length_nil, List.get?_cons_zero, Option.some.injEq] at h
      subst h
      simp only [Bool.not_eq_true] at hx
      exact hx

theorem takeWhile_get {p : Nat → Bool} :
    ∀ (l : List Nat) j b, j < (l.takeWhile p).length →
      l.get? j = some b → p b = true := by
  intro l
  induction l with
  | nil => intro j b h; simp at h
  | cons x xs ih =>
    intro j b hj hb
    by_cases hx : p x
    · simp [List.takeWhile_cons, hx] at hj
      match j with
      | 0 => simp at hb; simp [← hb]; exact hx
      | j + 1 => exact ih j b (by omega) (by simpa using hb)
    · simp [List.takeWhile_cons, hx] at hj

/-! ## Facts about the identifier shapes -/

theorem numIndexMatch_digits {l : List Nat} (h : numIndexMatch l = true) :
    ∀ b ∈ l, isDigitB b = true := by
  intro b hb
  match l with
  | [] => simp at hb
  | c :: r =>
    rw [List.mem_cons] at hb
    simp only [numIndexMatch] at h
    by_cases hc : c = 48
    · rw [if_pos hc] at h
      have hr : r = [] := by simpa using h
      rcases hb with hb | hb
      · subst hb
        rw [hc]
        decide
      · rw [hr] at hb
        simp at hb
    · rw [if_neg hc] at h
      simp only [Bool.and_eq_true, decide_eq_true_eq, List.all_eq_true] at h
      rcases hb with hb | hb
      · subst hb
        simp only [isDigitB, Bool.and_eq_true, decide_eq_true_eq]
        omega
      · exact h.2 b hb

theorem bracketBody_mem {rest : List Nat} {cb : Nat}
    (h : bracketBody rest cb = true) :
    ∀ b ∈ rest, b = cb ∨ isDigitB b = true := by
  intro b hb
  simp only [bracketBody] at h
  match hrev : rest.reverse with
  | [] =>
    rw [hrev] at h
    simp at h
  | d :: mid =>
    rw [hrev] at h
    simp only [Bool.and_eq_true, decide_eq_true_eq] at h
    have hb2 : b ∈ d :: mid := by
      rw [← hrev]
      exact List.mem_reverse.mpr hb
    rw [List.mem_cons] at hb2
    rcases hb2 with hb2 | hb2
    · left
      rw [hb2]
      exact h.1
    · right
      exact numIndexMatch_digits h.2 b (by simpa using hb2)

theorem keySuffixOk_mem {s : List Nat} (h : keySuffixOk s = true) :
    ∀ b ∈ s, b = 91 ∨ b = 93 ∨ b = 40 ∨ b = 41 ∨ isDigitB b = true := by
  intro b hb
  match s with
  | [] => simp at hb
  | c :: rest =>
    rw [List.mem_cons] at hb
    simp only [keySuffixOk] at h
    by_cases hc : c = 91
    · rw [if_pos hc] at h
      rcases hb with hb | hb
      · left
        rw [hb, hc]
      · rcases bracketBody_mem h b hb with h' | h'
        · right; left; exact h'
        · right; right; right; right; exact h'
    · rw [if_neg hc] at h
      by_cases hc2 : c = 40
      · rw [if_pos hc2] at h
        rcases hb with hb | hb
        · right; right; left
          rw [hb, hc2]
        · rcases bracketBody_mem h b hb with h' | h'
          · right; right; right; left; exact h'
          · right; right; right; right; exact h'
      · rw [if_neg hc2] at h
        simp at h

theorem keyMatch_no_semi {l : List Nat} (h : keyMatch l = true) :
    ∀ b ∈ l, b ≠ 59 := by
  intro b hb hbe
  subst hbe
  match l with
  | [] => simp at hb
  | c :: r =>
    simp only [keyMatch, Bool.and_eq_true] at h
    have hsplit := List.takeWhile_append_dropWhile isAlnumU (c :: r)
    rw [← hsplit] at hb
    rcases List.mem_append.mp hb with hb | hb
    · have := List.mem_takeWhile_imp hb
      simp [isAlnumU, isAlphaB, isDigitB] at this
    · rcases keySuffixOk_mem h.2 59 hb with h' | h' | h' | h' | h' <;>
        simp [isDigitB] at h'

/-! ## The value parser only ever produces the twelve literal messages -/

set_option maxHeartbeats 1000000 in
/-- Every error any of the four mutually recursive parse functions can
produce carries one of the twelve messages written literally in the
source. -/
theorem parse_msgs : ∀ (fuel : Nat),
    (∀ text s vt acc p m, parse_struct text s vt acc fuel = .err p m → m ∈ pmsgs) ∧
    (∀ text s et p m, parse_array text s et fuel = .err p m → m ∈ pmsgs) ∧
    (∀ text s et es p m, parse_array_loop text s et es fuel = .err p m → m ∈ pmsgs) ∧
    (∀ text s p m, parse_struct_or_array text s fuel = .err p m → m ∈ pmsgs) := by
  intro fuel
  induction fuel with
  | zero =>
    refine ⟨?_, ?_, ?_, ?_⟩ <;>
      (intros; simp [parse_struct, parse_array, parse_array_loop,
        parse_struct_or_array] at *)
  | succ n ih =>
    obtain ⟨ihs, iha, ihl, iho⟩ := ih
    refine ⟨?_, ?_, ?_, ?_⟩
    · intro text s vt acc p m h
      simp only [parse_struct] at h
      repeat' split at h
      all_goals first
        | (cases h; simp [pmsgs]; done)
        | exact ihs _ _ _ _ _ _ h
        | exact iha _ _ _ _ _ h
        | exact ihl _ _ _ _ _ _ h
        | exact iho _ _ _ _ h
        | (cases h
           rename_i heq
           repeat' split at heq
           all_goals first
             | (cases heq; simp [pmsgs]; done)
             | exact ihs _ _ _ _ _ _ heq
             | exact iha _ _ _ _ _ heq
             | exact ihl _ _ _ _ _ _ heq
             | exact iho _ _ _ _ heq
             | (rename_i heq2
                obtain ⟨rfl, rfl⟩ := heq
                first
                  | exact ihs _ _ _ _ _ _ heq2
                  | exact iha _ _ _ _ _ heq2
                  | exact ihl _ _ _ _ _ _ heq2
                  | exact iho _ _ _ _ heq2)
             | simp_all)
        | simp_all
    · intro text s et p m h
      simp only [parse_array] at h
      repeat' split at h
      all_goals first
        | (cases h; simp [pmsgs]; done)
        | exact ihs _ _ _ _ _ _ h
        | exact iha _ _ _ _ _ h
        | exact ihl _ _ _ _ _ _ h
        | exact iho _ _ _ _ h
        | (cases h
           rename_i heq
           repeat' split at heq
           all_goals first
             | (cases heq; simp [pmsgs]; done)
             | exact ihs _ _ _ _ _ _ heq
             | exact iha _ _ _ _ _ heq
             | exact ihl _ _ _ _ _ _ heq
             | exact iho _ _ _ _ heq
             | (rename_i heq2
                obtain ⟨rfl, rfl⟩ := heq
                first
                  | exact ihs _ _ _ _ _ _ heq2
                  | exact iha _ _ _ _ _ heq2
                  | exact ihl _ _ _ _ _ _ heq2
                  | exact iho _ _ _ _ heq2)
             | simp_all)
        | simp_all
    · intro text s et es p m h
      simp only [parse_array_loop] at h
      repeat' split at h
      all_goals first
        | (cases h; simp [pmsgs]; done)
        | exact ihs _ _ _ _ _ _ h
        | exact iha _ _ _ _ _ h
        | exact ihl _ _ _ _ _ _ h
        | exact iho _ _ _ _ h
        | (cases h
           rename_i heq
           repeat' split at heq
           all_goals first
             | (cases heq; simp [pmsgs]; done)
             | exact ihs _ _ _ _ _ _ heq
             | exact iha _ _ _ _ _ heq
             | exact ihl _ _ _ _ _ _ heq
             | exact iho _ _ _ _ heq
             | (rename_i heq2
                obtain ⟨rfl, rfl⟩ := heq
                first
                  | exact ihs _ _ _ _ _ _ heq2
                  | exact iha _ _ _ _ _ heq2
                  | exact ihl _ _ _ _ _ _ heq2
                  | exact iho _ _ _ _ heq2)
             | simp_all)
        | simp_all
    · intro text s p m h
      simp only [parse_struct_or_array] at h
      repeat' split at h
      all_goals first
        | (cases h; simp [pmsgs]; done)
        | exact ihs _ _ _ _ _ _ h
        | exact iha _ _ _ _ _ h
        | exact ihl _ _ _ _ _ _ h
        | exact iho _ _ _ _ h
        | (cases h
           rename_i heq
           repeat' split at heq
           all_goals first
             | (cases heq; simp [pmsgs]; done)
             | exact ihs _ _ _ _ _ _ heq
             | exact iha _ _ _ _ _ heq
             | exact ihl _ _ _ _ _ _ heq
             | exact iho _ _ _ _ heq
             | (rename_i heq2
                obtain ⟨rfl, rfl⟩ := heq
                first
                  | exact ihs _ _ _ _ _ _ heq2
                  | exact iha _ _ _ _ _ heq2
                  | exact ihl _ _ _ _ _ _ heq2
                  | exact iho _ _ _ _ heq2)
             | simp_all)
        | simp_all

/-! ## Shapes of the per-check results -/

theorem parseTop_msgs {text : List Nat} {fuel p : Nat} {m : String}
    (h : parseTop text fuel = .err p m) : m ∈ pmsgs := by
  simp only [parseTop] at h
  repeat' split at h
  all_goals first
    | (cases h; simp [pmsgs])
    | exact (parse_msgs fuel).1 _ _ _ _ _ _ h
    | simp_all

theorem try_report_comment_shape (txt : List Nat) (sp : Span) :
    try_report_comment txt sp = .ok ∨
      try_report_comment txt sp = .noMatch ∨
      try_report_comment txt sp = .err [⟨.slashSlashComent, sp⟩] := by
  unfold try_report_comment
  by_cases h1 : (rustTrim txt).head? = some 59
  · rw [if_pos h1]
    left
    rfl
  · rw [if_neg h1]
    by_cases h2 : List.take 2 (rustTrim txt) = [47, 47]
    · rw [if_pos h2]
      right; right
      rfl
    · rw [if_neg h2]
      right; left
      rfl

theorem try_report_comment_semi {txt : List Nat} {sp : Span}
    (h : (rustTrim txt).head? = some 59) :
    try_report_comment txt sp = .ok := by
  unfold try_report_comment
  rw [if_pos h]

theorem try_report_section_error_shape (line : List Nat) (sp : Span) :
    try_report_section_error line sp = .noMatch ∨
      try_report_section_error line sp = .err [⟨.malformedHeader, sp⟩] := by
  unfold try_report_section_error
  by_cases h : (sectionPre line).head? = some 91 ∧
      (sectionPre line).getLast? = some 93
  · rw [if_pos h]
    right
    rfl
  · rw [if_neg h]
    left
    rfl

theorem visit_section_header_shape (txt : List Nat) (sp : Span) :
    visit_section_header txt sp = .ok ∨
      visit_section_header txt sp = .err [⟨.invalidIdent, sp⟩] := by
  unfold visit_section_header
  split
  · left; rfl
  · right; rfl

theorem visit_unknown_shape (txt : List Nat) (sp : Span) :
    visit_unknown txt sp = .ok ∨
      ∃ e, visit_unknown txt sp = .err e ∧ e ≠ [] ∧
        ∀ r ∈ e, r.kind = .slashSlashComent ∨ r.kind = .malformedHeader ∨
          r.kind = .other := by
  unfold visit_unknown
  rcases try_report_comment_shape txt sp with h1 | h1 | h1 <;> rw [h1]
  · left; rfl
  all_goals
    rcases try_report_section_error_shape txt sp with h2 | h2 <;> rw [h2] <;>
      simp <;> intro r hr <;> simp_all <;> try (rw [hr]; simp)

theorem vpt_err_shape {txt : List Nat} {sp : Span} {e : List ReportedError}
    (h : validate_property_text txt sp = some (.err e)) :
    (∃ m spn, e = [⟨.custom m, spn⟩] ∧ m ∈ pmsgs) ∨
      ∃ spn, e = [⟨.badValue, spn⟩] := by
  simp only [validate_property_text] at h
  repeat' split at h
  all_goals simp_all
  · rename_i heqp
    subst h
    left
    exact ⟨_, ⟨_, rfl⟩, parseTop_msgs heqp⟩
  · subst h
    right
    exact ⟨_, rfl⟩

theorem samFollowUp_shape {text : List Nat} {sp : Span} {prev : Option Span}
    {e c : List ReportedError} (h : samFollowUp text sp prev e = some c) :
    c = e ∨ ∃ spn, c = e ++ [⟨.spaceAfterMultiline, spn⟩] := by
  simp only [samFollowUp] at h
  repeat' split at h
  all_goals simp_all
  subst h
  right
  exact ⟨_, rfl⟩

theorem errs0_kinds {prop : List Nat} {psp : Span} {errs : List ReportedError}
    (h : (if keyMatch prop = true then some []
      else
        match try_report_comment prop psp with
        | DiagResult.ok => none
        | DiagResult.noMatch => some [⟨.invalidIdent, psp⟩]
        | DiagResult.err e => some e) = some errs) :
    ∀ r ∈ errs, r.kind = .invalidIdent ∨ r.kind = .slashSlashComent := by
  intro r hr
  by_cases hk : keyMatch prop = true
  · rw [if_pos hk] at h
    simp at h
    subst h
    simp at hr
  · rw [if_neg hk] at h
    rcases try_report_comment_shape prop psp with h1 | h1 | h1 <;> rw [h1] at h
    · simp at h
    · simp at h
      subst h
      simp at hr
      rw [hr]
      left
      rfl
    · simp at h
      subst h
      simp at hr
      rw [hr]
      right
      rfl

theorem visit_kvp_err_kinds {prop : List Nat} {psp : Span} {txt : List Nat}
    {tsp : Span} {e : List ReportedError}
    (h : visit_kvp prop psp txt tsp = some (.err e)) :
    ∀ r ∈ e, r.kind = .invalidIdent ∨ r.kind = .slashSlashComent ∨
      r.kind = .badValue ∨ ∃ m, r.kind = .custom m ∧ m ∈ pmsgs := by
  intro r hr
  simp only [visit_kvp] at h
  repeat' split at h
  all_goals simp_all
  · rename_i heq1 x2 more2 heq2
    subst h
    rcases List.mem_append.mp hr with hm | hm
    · rcases errs0_kinds heq1 r hm with h' | h'
      · left; exact h'
      · right; left; exact h'
    · rcases vpt_err_shape heq2 with ⟨m, spn, hmore, hmem⟩ | ⟨spn, hmore⟩
      · subst hmore
        simp at hm
        rw [hm]
        right; right; right
        exact ⟨m, rfl, hmem⟩
      · subst hmore
        simp at hm
        rw [hm]
        right; right; left
        rfl
  · rename_i x1 r2 heq1 x2 heq2 hne
    rcases errs0_kinds heq1 r hr with h' | h'
    · left; exact h'
    · right; left; exact h'

theorem chunk_custom_msgs {text : List Nat} {d : Directive}
    {c : List ReportedError} (hc : chunkFor text d = some c) :
    ∀ r ∈ c, ∀ m, r.kind = .custom m → m ∈ pmsgs := by
  intro r hr m hm
  match d with
  | .sectionHeader sp objName =>
    simp only [chunkFor] at hc
    match hs : sliceOk text objName.fst objName.snd with
    | none => rw [hs] at hc; simp at hc
    | some t =>
      rw [hs] at hc
      simp only [] at hc
      rcases visit_section_header_shape t objName with hv | hv <;>
        rw [hv] at hc <;> simp at hc <;> subst hc <;> simp at hr
      rw [hr] at hm
      simp at hm
  | .kvp sp ident value op =>
    simp only [chunkFor] at hc
    match hs : sliceOk text ident.fst ident.snd with
    | none => rw [hs] at hc; simp at hc
    | some ip =>
      rw [hs] at hc
      simp only [] at hc
      match hs2 : sliceOk text value.fst value.snd with
      | none => rw [hs2] at hc; simp at hc
      | some vp =>
        rw [hs2] at hc
        simp only [] at hc
        match hv : visit_kvp ip ident vp value with
        | none => rw [hv] at hc; simp at hc
        | some (.err e) =>
          rw [hv] at hc
          simp at hc
          subst hc
          rcases visit_kvp_err_kinds hv r hr with h' | h' | h' | ⟨m2, h', hmem⟩ <;>
            rw [h'] at hm <;> simp at hm
          rw [← hm]
          exact hmem
        | some .ok => rw [hv] at hc; simp at hc; subst hc; simp at hr
        | some .noMatch => rw [hv] at hc; simp at hc; subst hc; simp at hr
  | .unknown sp prev =>
    simp only [chunkFor] at hc
    match hs : sliceOk text sp.fst sp.snd with
    | none => rw [hs] at hc; simp at hc
    | some t =>
      rw [hs] at hc
      simp only [] at hc
      rcases visit_unknown_shape t sp with hv | ⟨e, hv, hne, hkinds⟩ <;>
        rw [hv] at hc
      · simp at hc; subst hc; simp at hr
      · rcases samFollowUp_shape hc with rfl | ⟨spn, rfl⟩
        · rcases hkinds r hr with h' | h' | h' <;> rw [h'] at hm <;> simp at hm
        · rcases List.mem_append.mp hr with hm2 | hm2
          · rcases hkinds r hm2 with h' | h' | h' <;> rw [h'] at hm <;>
              simp at hm
          · simp at hm2
            rw [hm2] at hm
            simp at hm

theorem chunk_sam_shape {text : List Nat} {d : Directive}
    {c : List ReportedError} (hc : chunkFor text d = some c) :
    ∀ j r, c.get? j = some r → r.kind = .spaceAfterMultiline →
      (∃ sp prev, d = .unknown sp prev) ∧ 0 < j ∧
        ∃ r2, c.get? (j - 1) = some r2 := by
  intro j r hj hk
  have hrc : r ∈ c := List.get?_mem hj
  match d with
  | .sectionHeader sp objName =>
    exfalso
    simp only [chunkFor] at hc
    match hs : sliceOk text objName.fst objName.snd with
    | none => rw [hs] at hc; simp at hc
    | some t =>
      rw [hs] at hc
      simp only [] at hc
      rcases visit_section_header_shape t objName with hv | hv <;>
        rw [hv] at hc <;> simp at hc <;> subst hc <;> simp at hrc
      rw [hrc] at hk
      simp at hk
  | .kvp sp ident value op =>
    exfalso
    simp only [chunkFor] at hc
    match hs : sliceOk text ident.fst ident.snd with
    | none => rw [hs] at hc; simp at hc
    | some ip =>
      rw [hs] at hc
      simp only [] at hc
      match hs2 : sliceOk text value.fst value.snd with
      | none => rw [hs2] at hc; simp at hc
      | some vp =>
        rw [hs2] at hc
        simp only [] at hc
        match hv : visit_kvp ip ident vp value with
        | none => rw [hv] at hc; simp at hc
        | some (.err e) =>
          rw [hv] at hc
          simp at hc
          subst hc
          rcases visit_kvp_err_kinds hv r hrc with h' | h' | h' | ⟨m2, h', _⟩ <;>
            rw [h'] at hk <;> simp at hk
        | some .ok => rw [hv] at hc; simp at hc; subst hc; simp at hrc
        | some .noMatch => rw [hv] at hc; simp at hc; subst hc; simp at hrc
  | .unknown sp prev =>
    refine ⟨⟨sp, prev, rfl⟩, ?_⟩
    simp only [chunkFor] at hc
    match hs : sliceOk text sp.fst sp.snd with
    | none => rw [hs] at hc; simp at hc
    | some t =>
      rw [hs] at hc
      simp only [] at hc
      rcases visit_unknown_shape t sp with hv | ⟨e, hv, hne, hkinds⟩ <;>
        rw [hv] at hc
      · simp at hc; subst hc; simp at hj
      · rcases samFollowUp_shape hc with rfl | ⟨spn, rfl⟩
        · exfalso
          rcases hkinds r hrc with h' | h' | h' <;> rw [h'] at hk <;>
            simp at hk
        · -- c = e ++ [sam]; the SAM can only be the appended element
          have hjlen : ¬ j < e.length := by
            intro hlt
            rw [List.get?_append hlt] at hj
            have : r ∈ e := List.get?_mem hj
            rcases hkinds r this with h' | h' | h' <;> rw [h'] at hk <;>
              simp at hk
          have hjlen2 : j < e.length + 1 := by
            have := List.get?_eq_some.mp hj
            rcases this with ⟨hlt, _⟩
            simpa using hlt
          have hje : j = e.length := by omega
          have hepos : 0 < e.length := List.length_pos.mpr hne
          refine ⟨by omega, ?_⟩
          have hlt : j - 1 < e.length := by omega
          rw [List.get?_append hlt]
          exact ⟨e.get ⟨j - 1, hlt⟩, List.get?_eq_get hlt⟩

theorem chunk_semi_unknown {text : List Nat} {sp : Span} {prev : Option Span}
    {t : List Nat} (hs : sliceOk text sp.fst sp.snd = some t)
    (hsemi : (rustTrim t).head? = some 59) :
    chunkFor text (.unknown sp prev) = some [] := by
  simp only [chunkFor]
  rw [hs]
  simp only []
  have hv : visit_unknown t sp = .ok := by
    unfold visit_unknown
    rw [try_report_comment_semi hsemi]
  rw [hv]

theorem validateLoop_acc (text : List Nat) :
    ∀ (ds : List Directive) (acc : List ReportedError),
      validateLoop text ds acc =
        (validateLoop text ds []).map (fun t => acc ++ t) := by
  intro ds
  induction ds with
  | nil => intro acc; simp [validateLoop]
  | cons d rest ih =>
    intro acc
    simp only [validateLoop]
    match hc : chunkFor text d with
    | none => simp
    | some c =>
      simp only []
      rw [ih (acc ++ c), ih ([] ++ c)]
      cases validateLoop text rest [] <;> simp

theorem validateLoop_mem {text : List Nat} :
    ∀ (ds : List Directive) (errs : List ReportedError),
      validateLoop text ds [] = some errs →
      ∀ r ∈ errs, ∃ d ∈ ds, ∃ c, chunkFor text d = some c ∧ r ∈ c := by
  intro ds
  induction ds with
  | nil =>
    intro errs h r hr
    simp [validateLoop] at h
    subst h
    simp at hr
  | cons d rest ih =>
    intro errs h r hr
    simp only [validateLoop] at h
    match hc : chunkFor text d with
    | none => rw [hc] at h; simp at h
    | some c =>
      rw [hc] at h
      simp only [] at h
      rw [validateLoop_acc text rest ([] ++ c)] at h
      match ht : validateLoop text rest [] with
      | none => rw [ht] at h; simp at h
      | some tail =>
        rw [ht] at h
        simp at h
        subst h
        rcases List.mem_append.mp hr with hm | hm
        · exact ⟨d, List.mem_cons_self d rest, c, hc, hm⟩
        · obtain ⟨d', hd', c', hc', hm'⟩ := ih tail ht r hm
          exact ⟨d', List.mem_cons_of_mem d hd', c', hc', hm'⟩

theorem validateLoop_get {text : List Nat} :
    ∀ (ds : List Directive) (errs : List ReportedError),
      validateLoop text ds [] = some errs →
      ∀ i r, errs.get? i = some r →
        ∃ d c j a, d ∈ ds ∧ chunkFor text d = some c ∧ c.get? j = some r ∧
          i = a + j ∧
          ∀ k r2, c.get? k = some r2 → errs.get? (a + k) = some r2 := by
  intro ds
  induction ds with
  | nil =>
    intro errs h i r hi
    simp [validateLoop] at h
    subst h
    simp at hi
  | cons d rest ih =>
    intro errs h i r hi
    simp only [validateLoop] at h
    match hc : chunkFor text d with
    | none => rw [hc] at h; simp at h
    | some c =>
      rw [hc] at h
      simp only [] at h
      rw [validateLoop_acc text rest ([] ++ c)] at h
      match ht : validateLoop text rest [] with
      | none => rw [ht] at h; simp at h
      | some tail =>
        rw [ht] at h
        simp at h
        subst h
        by_cases hlt : i < c.length
        · refine ⟨d, c, i, 0, List.mem_cons_self d rest, hc, ?_, by omega, ?_⟩
          · rw [List.get?_append hlt] at hi
            exact hi
          · intro k r2 hk
            have hklt : k < c.length := by
              rcases List.get?_eq_some.mp hk with ⟨h', _⟩
              exact h'
            rw [Nat.zero_add, List.get?_append hklt]
            exact hk
        · push_neg at hlt
          rw [List.get?_append_right hlt] at hi
          obtain ⟨d', c', j, a', hd', hc', hj, hia, hall⟩ :=
            ih tail ht (i - c.length) r hi
          refine ⟨d', c', j, c.length + a', List.mem_cons_of_mem d hd', hc',
            hj, by omega, ?_⟩
          intro k r2 hk
          rw [List.get?_append_right (by omega : c.length ≤ c.length + a' + k)]
          have : c.length + a' + k - c.length = a' + k := by omega
          rw [this]
          exact hall k r2 hk

theorem rustTrim_subset {l : List Nat} : ∀ b ∈ rustTrim l, b ∈ l := by
  intro b hb
  unfold rustTrim at hb
  rw [List.mem_reverse] at hb
  have h1 := (@List.dropWhile_sublist _
    ((l.dropWhile isWs6).reverse) isWs6).mem hb
  rw [List.mem_reverse] at h1
  exact (@List.dropWhile_sublist _ l isWs6).mem h1

theorem keyMatch_false_of_semi {prop : List Nat}
    (h : (rustTrim prop).head? = some 59) : keyMatch prop = false := by
  by_contra hk
  rw [Bool.not_eq_false] at hk
  have h59 : (59 : Nat) ∈ rustTrim prop := by
    have hh : (59 : Nat) ∈ (rustTrim prop).head? := by
      rw [h]
      rfl
    exact List.mem_of_mem_head? hh
  exact keyMatch_no_semi hk 59 (rustTrim_subset 59 h59) rfl

set_option maxRecDepth 10000

/-! ## Claim theorems -/

/-- C1 (refuted; code bug): `from_text` + `validate` is NOT panic-free.  For
the input `a= ` (value text one space: non-empty, all blanks) the
trimming loops of `validate_property_text` produce an inverted range and the
subsequent slice panics (in debug builds the `usize` underflow itself
panics); the model returns `none` (= panic). -/
theorem c1_validate_panics_on_blank_value :
    validateAll (strBytes "a= ") = none := by decide

/-- C2 (claim right, code wrong): parsing the value `(X=((A=1),(B=2)))` —
an array whose first element is a struct — hits the `unreachable!()` in
`parse_struct`, because `parse_array` forwards the `LParen` token itself
instead of the struct's first `Text` token; the parse and the whole
validation panic instead of succeeding. -/
theorem c2_array_of_structs_panics :
    parseTop (strBytes "(X=((A=1),(B=2)))")
        ((strBytes "(X=((A=1),(B=2)))").length + 2) = PRes.panic ∧
    validateAll (strBytes "a=(X=((A=1),(B=2)))") = none := by
  exact ⟨rfl, by decide⟩

/-- C3: the concrete scenario `"\n+MyVariable=(Abc[0]=\"Def\", \\\\ \n    )"`
produces exactly the stated Kvp and Unknown directives and exactly the three
stated diagnostics in order. -/
theorem c3_backslash_scenario :
    from_text (strBytes "\n+MyVariable=(Abc[0]=\"Def\", \\\\ \n    )") =
      [.kvp ⟨2, 31⟩ ⟨2, 12⟩ ⟨13, 31⟩ .insertUnique,
       .unknown ⟨32, 37⟩ (some ⟨1, 31⟩)] ∧
    validateAll (strBytes "\n+MyVariable=(Abc[0]=\"Def\", \\\\ \n    )") =
      some [⟨.custom "Expected `=`", ⟨30, 31⟩⟩, ⟨.other, ⟨32, 37⟩⟩,
        ⟨.spaceAfterMultiline, ⟨28, 37⟩⟩] := by
  constructor <;> decide

/-- C4 (refuted; code bug): for the input `  =x` the right-trim of the
property span walks past the span start through the leading blanks, so
`from_text` emits a Kvp whose ident span is `(2, 0)` with start 2 > end 0,
violating `start ≤ end` (and the later `&text[ident]` slice panics). -/
theorem c4_inverted_ident_span :
    from_text (strBytes "  =x") = [.kvp ⟨2, 4⟩ ⟨2, 0⟩ ⟨3, 4⟩ .set] ∧
    validateAll (strBytes "  =x") = none := by
  constructor <;> decide

/-- C5 counterexample: lexing the five bytes `"x,y"` does NOT give one
Quoted token covering them; the `,` sigil ends the quoted token early, so
four tokens result. -/
theorem c5_counterexample :
    lexAll (strBytes "\"x,y\"") =
      [Token.quoted (strBytes "\"x"), Token.comma,
       Token.text (strBytes "y"), Token.quoted (strBytes "\"")] ∧
    lexAll (strBytes "\"x,y\"") ≠ [Token.quoted (strBytes "\"x,y\"")] := by
  constructor <;> decide

/-- C6 counterexample: for the input `a=b \\` (two trailing backslashes, no
following line) validation yields exactly one BadValue diagnostic — no
`Custom("Trailing \\ without following line")` (or any other dedicated
trailing-continuation diagnostic) is ever surfaced. -/
theorem c6_counterexample :
    validateAll (strBytes "a=b \\\\") =
      some [⟨.badValue, ⟨2, 6⟩⟩] ∧
    ErrorKind.custom trailingMsg ∉
      ((validateAll (strBytes "a=b \\\\")).getD []).map ReportedError.kind := by
  constructor <;> decide

/-- C6 amended: no diagnostic produced by `validate` ever carries the
`Trailing \\ without following line` message — the only `Custom` messages
are the twelve value-parser messages, so a dangling continuation at end of
file gets no dedicated diagnostic. -/
theorem c6_amended_no_trailing_diag :
    ∀ (text : List Nat) (errs : List ReportedError),
      validateAll text = some errs →
      ∀ r ∈ errs, r.kind ≠ ErrorKind.custom trailingMsg := by
  intro text errs h r hr hkind
  simp only [validateAll] at h
  obtain ⟨d, _, c, hc, hrc⟩ := validateLoop_mem (from_text text) errs h r hr
  have hmem := chunk_custom_msgs hc r hrc trailingMsg hkind
  revert hmem
  decide

/-- Witness for C6 amended: applied to the input `a=b \\`, whose sole
diagnostic is the BadValue one. -/
theorem c6_amended_witness :
    (⟨ErrorKind.badValue, ⟨2, 6⟩⟩ : ReportedError).kind ≠
      ErrorKind.custom trailingMsg :=
  c6_amended_no_trailing_diag (strBytes "a=b \\\\")
    [⟨ErrorKind.badValue, ⟨2, 6⟩⟩] (by decide) _ (by decide)

/-- C8: a Kvp whose identifier text begins (after trimming) with `;` is
silently suppressed: `visit_kvp` returns Ok before even looking at the
value, and the directive contributes no diagnostics at all. -/
theorem c8_semi_kvp_suppressed :
    ∀ (text : List Nat) (sp ident value : Span) (op : KvpOp)
      (prop vp : List Nat),
      sliceOk text ident.fst ident.snd = some prop →
      sliceOk text value.fst value.snd = some vp →
      (rustTrim prop).head? = some 59 →
      visit_kvp prop ident vp value = some DiagResult.ok ∧
      chunkFor text (.kvp sp ident value op) = some [] := by
  intro text sp ident value op prop vp hsi hsv hsemi
  have hkm := keyMatch_false_of_semi hsemi
  have hvk : visit_kvp prop ident vp value = some DiagResult.ok := by
    simp [visit_kvp, hkm, try_report_comment_semi hsemi]
  refine ⟨hvk, ?_⟩
  simp only [chunkFor]
  rw [hsi]
  simp only []
  rw [hsv]
  simp only []
  rw [hvk]

/-- Witness for C8: the input `;a=b`, recognized as a Kvp with identifier
`;a` and value `b`, contributes no diagnostics. -/
theorem c8_witness :
    visit_kvp (strBytes ";a") ⟨0, 2⟩ (strBytes "b") ⟨3, 4⟩ =
      some DiagResult.ok ∧
    chunkFor (strBytes ";a=b") (.kvp ⟨0, 4⟩ ⟨0, 2⟩ ⟨3, 4⟩ .set) = some [] :=
  c8_semi_kvp_suppressed (strBytes ";a=b") ⟨0, 4⟩ ⟨0, 2⟩ ⟨3, 4⟩ .set
    (strBytes ";a") (strBytes "b") (by decide) (by decide) (by decide)

/-- C10: in every diagnostic list `validate` produces, a
SpaceAfterMultiline entry occurs only as a non-initial element of the chunk
contributed by a single Unknown directive — the immediately preceding entry
of the whole list belongs to the same Unknown — and an Unknown whose
trimmed text starts with `;` contributes no diagnostics at all (so in
particular no SpaceAfterMultiline), even when its previous line contains a
broken continuation. -/
theorem c10_sam_placement :
    ∀ (text : List Nat) (errs : List ReportedError),
      validateAll text = some errs →
      (∀ i r, errs.get? i = some r → r.kind = .spaceAfterMultiline →
        0 < i ∧ ∃ sp prev c j,
          Directive.unknown sp prev ∈ from_text text ∧
          chunkFor text (.unknown sp prev) = some c ∧
          c.get? j = some r ∧ 0 < j ∧
          ∃ r2, c.get? (j - 1) = some r2 ∧ errs.get? (i - 1) = some r2) ∧
      (∀ sp prev t, sliceOk text sp.fst sp.snd = some t →
        (rustTrim t).head? = some 59 →
        chunkFor text (.unknown sp prev) = some []) := by
  intro text errs h
  simp only [validateAll] at h
  constructor
  · intro i r hi hk
    obtain ⟨d, c, j, a, hd, hc, hj, hia, hall⟩ :=
      validateLoop_get (from_text text) errs h i r hi
    obtain ⟨⟨sp, prev, rfl⟩, hjpos, r2, hr2⟩ := chunk_sam_shape hc j r hj hk
    refine ⟨by omega, sp, prev, c, j, hd, hc, hj, hjpos, r2, hr2, ?_⟩
    have := hall (j - 1) r2 hr2
    have hi1 : i - 1 = a + (j - 1) := by omega
    rw [hi1]
    exact this
  · intro sp prev t hs hsemi
    exact chunk_semi_unknown hs hsemi

/-- Witness for C10: in the diagnostics of the scenario input, the
SpaceAfterMultiline at index 2 sits right after the Other diagnostic of the
same Unknown directive. -/
theorem c10_witness :
    0 < 2 ∧ ∃ sp prev c j,
      Directive.unknown sp prev ∈
        from_text (strBytes "\n+MyVariable=(Abc[0]=\"Def\", \\\\ \n    )") ∧
      chunkFor (strBytes "\n+MyVariable=(Abc[0]=\"Def\", \\\\ \n    )")
        (.unknown sp prev) = some c ∧
      c.get? j = some ⟨.spaceAfterMultiline, ⟨28, 37⟩⟩ ∧ 0 < j ∧
      ∃ r2, c.get? (j - 1) = some r2 ∧
        ([⟨.custom "Expected `=`", ⟨30, 31⟩⟩, ⟨.other, ⟨32, 37⟩⟩,
          ⟨.spaceAfterMultiline, ⟨28, 37⟩⟩] :
            List ReportedError).get? (2 - 1) = some r2 :=
  (c10_sam_placement (strBytes "\n+MyVariable=(Abc[0]=\"Def\", \\\\ \n    )")
      [⟨.custom "Expected `=`", ⟨30, 31⟩⟩, ⟨.other, ⟨32, 37⟩⟩,
        ⟨.spaceAfterMultiline, ⟨28, 37⟩⟩] (by decide)).1 2
    ⟨.spaceAfterMultiline, ⟨28, 37⟩⟩ (by decide) rfl

/-- C9: `[MyPackage.MyClass] ` (trailing space) is recognized as a single
Unknown directive spanning the whole line with no previous line, and the
default validator reports exactly one MalformedHeader over it. -/
theorem c9_trailing_space_header :
    from_text (strBytes "[MyPackage.MyClass] ") = [.unknown ⟨0, 20⟩ none] ∧
    validateAll (strBytes "[MyPackage.MyClass] ") =
      some [⟨.malformedHeader, ⟨0, 20⟩⟩] := by
  constructor <;> decide

theorem findFrom_some_spec {text : List Nat} {p : Nat} {f : Nat → Bool}
    {j : Nat} (h : findFrom text p f = some j) :
    p ≤ j ∧ (∃ b, byteAt text j = some b ∧ f b = true) ∧
      ∀ k b, p ≤ k → k < j → byteAt text k = some b → f b = false := by
  simp only [findFrom, Option.map_eq_some'] at h
  obtain ⟨j0, hj0, rfl⟩ := h
  obtain ⟨⟨b, hb, hfb⟩, hlt⟩ := findIdx?_some_spec (text.drop p) j0 hj0
  rw [List.get?_drop] at hb
  refine ⟨by omega, ⟨b, by simpa [byteAt, Nat.add_comm] using hb, hfb⟩, ?_⟩
  intro k c hk1 hk2 hc
  have := hlt (k - p) c (by omega)
  rw [List.get?_drop] at this
  apply this
  have : p + (k - p) = k := by omega
  rw [this]
  exact hc

theorem findFrom_none_spec {text : List Nat} {p : Nat} {f : Nat → Bool}
    (h : findFrom text p f = none) :
    ∀ k b, p ≤ k → byteAt text k = some b → f b = false := by
  intro k b hk hb
  simp only [findFrom, Option.map_eq_none'] at h
  have := findIdx?_none_spec (text.drop p) h (k - p) b
  rw [List.get?_drop] at this
  apply this
  have hpk : p + (k - p) = k := by omega
  rw [hpk]
  exact hb

/-- C5 amended: a Quoted token starting at `"` (i) extends to the next `"`
inclusive provided no other sigil byte lies in between, (ii) stops just
before the first intervening non-quote sigil byte otherwise, and (iii) runs
to end of input when neither follows — not "to the next `"` regardless of
the bytes between". -/
theorem c5_amended_quoted_extent :
    (∀ (text : List Nat) (p j : Nat), byteAt text j = some 34 → p < j →
      (∀ k b, p < k → k < j → byteAt text k = some b → isSigil b = false) →
      continue_string text p 34 =
        (Token.quoted (sliceU text p (j + 1)), j + 1)) ∧
    (∀ (text : List Nat) (p j b : Nat), byteAt text j = some b → p < j →
      isSigil b = true → b ≠ 34 →
      (∀ k b2, p < k → k < j → byteAt text k = some b2 →
        isSigil b2 = false) →
      continue_string text p 34 = (Token.quoted (sliceU text p j), j)) ∧
    (∀ (text : List Nat) (p : Nat),
      (∀ k b, p < k → byteAt text k = some b → isSigil b = false) →
      continue_string text p 34 =
        (Token.quoted (sliceU text p text.length), text.length)) := by
  refine ⟨?_, ?_, ?_⟩
  · intro text p j hj hpj hclean
    have hff : findFrom text (p + 1) isSigil = some j := by
      match hf : findFrom text (p + 1) isSigil with
      | none =>
        exfalso
        have := findFrom_none_spec hf j 34 (by omega) hj
        simp [isSigil] at this
      | some j' =>
        obtain ⟨hp1, ⟨b', hb', hfb'⟩, hmin⟩ := findFrom_some_spec hf
        by_cases hlt : j' < j
        · exact absurd hfb' (by simp [hclean j' b' (by omega) hlt hb'])
        · by_cases hgt : j < j'
          · have := hmin j 34 (by omega) hgt hj
            simp [isSigil] at this
          · have : j' = j := by omega
            rw [this]
    simp only [continue_string, hff]
    simp [hj]
  · intro text p j b hj hpj hsig hne hclean
    have hff : findFrom text (p + 1) isSigil = some j := by
      match hf : findFrom text (p + 1) isSigil with
      | none =>
        exfalso
        exact absurd hsig (by simp [findFrom_none_spec hf j b (by omega) hj])
      | some j' =>
        obtain ⟨hp1, ⟨b', hb', hfb'⟩, hmin⟩ := findFrom_some_spec hf
        by_cases hlt : j' < j
        · exact absurd hfb' (by simp [hclean j' b' (by omega) hlt hb'])
        · by_cases hgt : j < j'
          · exact absurd hsig (by simp [hmin j b (by omega) hgt hj])
          · have : j' = j := by omega
            rw [this]
    simp only [continue_string, hff]
    simp [hj, hne]
  · intro text p hclean
    have hff : findFrom text (p + 1) isSigil = none := by
      match hf : findFrom text (p + 1) isSigil with
      | none => rfl
      | some j' =>
        obtain ⟨hp1, ⟨b', hb', hfb'⟩, _⟩ := findFrom_some_spec hf
        exact absurd hfb' (by simp [hclean j' b' (by omega) hb'])
    simp only [continue_string, hff]
    simp

/-- Witness for C5 amended: the token for `"a"` runs through the closing
quote (no sigil byte intervenes). -/
theorem c5_amended_witness :
    continue_string (strBytes "\"a\"") 0 34 =
      (Token.quoted (sliceU (strBytes "\"a\"") 0 3), 3) :=
  c5_amended_quoted_extent.1 (strBytes "\"a\"") 0 2 (by decide) (by decide)
    (fun k b h1 h2 hb => by
      have hk : k = 1 := by omega
      subst hk
      have hb97 : b = 97 := by
        simp [byteAt, strBytes] at hb
        omega
      subst hb97
      decide)

/-! ## Slice arithmetic -/

theorem sliceU_get? {t : List Nat} {a b m : Nat} (h : m < b - a) :
    (sliceU t a b).get? m = t.get? (a + m) := by
  unfold sliceU
  rw [List.get?_take h, List.get?_drop]

theorem sliceU_length {t : List Nat} {a b : Nat} (hab : a ≤ b)
    (hb : b ≤ t.length) : (sliceU t a b).length = b - a := by
  unfold sliceU
  rw [List.length_take, List.length_drop]
  omega

theorem sliceU_append {t : List Nat} {a b c : Nat} (hab : a ≤ b)
    (hbc : b ≤ c) : sliceU t a b ++ sliceU t b c = sliceU t a c := by
  unfold sliceU
  have h1 : t.drop b = (t.drop a).drop (b - a) := by
    rw [List.drop_drop]
    congr 1
    omega
  rw [h1]
  have h2 : c - a = (b - a) + (c - b) := by omega
  rw [h2, List.take_add]

theorem sliceU_full {t : List Nat} : sliceU t 0 t.length = t := by
  unfold sliceU
  simp

/-! ## Facts about the line splitter -/

theorem splitAux_length {text : List Nat} :
    ∀ (fuel offset : Nat), (splitLinesAux text offset fuel).length ≤ fuel := by
  intro fuel
  induction fuel with
  | zero => intro offset; simp [splitLinesAux]
  | succ n ih =>
    intro offset
    simp only [splitLinesAux]
    split
    · simp
    · split
      · simpa using Nat.succ_le_succ (ih _)
      · simp

theorem splitAux_wf {text : List Nat} :
    ∀ (fuel offset : Nat), ∀ s ∈ splitLinesAux text offset fuel,
      offset ≤ s.fst ∧ s.fst ≤ s.snd ∧ s.snd ≤ text.length := by
  intro fuel
  induction fuel with
  | zero => intro offset s hs; simp [splitLinesAux] at hs
  | succ n ih =>
    intro offset s hs
    simp only [splitLinesAux] at hs
    split at hs
    · simp at hs
    · rename_i hoff
      split at hs
      · rename_i p hfind
        rcases List.mem_cons.mp hs with hs | hs
        · subst hs
          obtain ⟨⟨b, hb, _⟩, _⟩ := findIdx?_some_spec _ _ hfind
          have hp : p < text.length - offset := by
            rcases List.get?_eq_some.mp hb with ⟨hlt, _⟩
            simpa using hlt
          simp only
          omega
        · have := ih _ s hs
          omega
      · simp at hs
        subst hs
        simp only
        omega

theorem splitAux_pairwise {text : List Nat} :
    ∀ (fuel offset : Nat),
      List.Pairwise (fun a b : Span => a.snd < b.fst)
        (splitLinesAux text offset fuel) := by
  intro fuel
  induction fuel with
  | zero => intro offset; simp [splitLinesAux]
  | succ n ih =>
    intro offset
    simp only [splitLinesAux]
    split
    · simp
    · split
      · rename_i p hfind
        refine List.Pairwise.cons ?_ (ih _)
        intro s hs
        have hrun : 1 ≤ ((text.drop (offset + p)).takeWhile isNl).length := by
          by_contra hr
          push_neg at hr
          obtain ⟨⟨b, hb, hnl⟩, _⟩ := findIdx?_some_spec _ _ hfind
          rw [List.get?_drop] at hb
          have h0 : ((text.drop (offset + p)).takeWhile isNl).length = 0 := by
            omega
          have hbd := @takeWhile_boundary isNl (text.drop (offset + p)) b
          rw [h0, List.get?_drop, Nat.add_zero] at hbd
          rw [hbd hb] at hnl
          cases hnl
        have := (splitAux_wf n _ s hs).1
        simp only
        omega
      · simp

theorem splitAux_gap {text : List Nat} :
    ∀ (fuel offset : Nat), text.length - offset < fuel →
      ∀ i b, offset ≤ i → text.get? i = some b →
        (∀ s ∈ splitLinesAux text offset fuel,
          ¬(s.fst ≤ i ∧ i < s.snd)) →
        isNl b = true := by
  intro fuel
  induction fuel with
  | zero => intro offset h; omega
  | succ n ih =>
    intro offset hfuel i b hoff hb hunc
    have hilen : i < text.length := by
      rcases List.get?_eq_some.mp hb with ⟨hlt, _⟩
      exact hlt
    simp only [splitLinesAux] at hunc
    by_cases hend : text.length ≤ offset
    · omega
    · rw [if_neg hend] at hunc
      match hfind : List.findIdx? isNl (text.drop offset) with
      | some p =>
        rw [hfind] at hunc
        have hhead := hunc _ (List.mem_cons_self _ _)
        simp only [not_and, not_lt] at hhead
        have hip : offset + p ≤ i := hhead hoff
        set run := ((text.drop (offset + p)).takeWhile isNl).length with hrun
        by_cases hin : i < offset + p + run
        · -- inside the newline run
          have hidx : i - (offset + p) < run := by omega
          have hget : (text.drop (offset + p)).get? (i - (offset + p)) =
              some b := by
            rw [List.get?_drop]
            have : offset + p + (i - (offset + p)) = i := by omega
            rw [this]
            exact hb
          exact takeWhile_get _ _ _ hidx hget
        · -- beyond the run: inductive case
          push_neg at hin
          have hrun1 : 1 ≤ run := by
            by_contra hr
            push_neg at hr
            obtain ⟨⟨b2, hb2, hnl2⟩, _⟩ := findIdx?_some_spec _ _ hfind
            rw [List.get?_drop] at hb2
            have h0 : run = 0 := by omega
            have hbd := @takeWhile_boundary isNl
              (text.drop (offset + p)) b2
            rw [← hrun, h0, List.get?_drop, Nat.add_zero] at hbd
            rw [hbd hb2] at hnl2
            cases hnl2
          refine ih (offset + p + run) (by omega) i b hin hb ?_
          intro s hs
          exact hunc s (List.mem_cons_of_mem _ hs)
      | none =>
        rw [hfind] at hunc
        have := hunc ⟨offset, text.length⟩ (by simp)
        simp only [not_and, not_lt] at this
        have := this hoff
        omega

theorem lines_wf {text : List Nat} {k : Nat} {s : Span}
    (h : (splitLines text).get? k = some s) :
    s.fst ≤ s.snd ∧ s.snd ≤ text.length := by
  have hm : s ∈ splitLines text := List.get?_mem h
  exact (splitAux_wf _ _ s hm).2

theorem lines_order {text : List Nat} {k1 k2 : Nat} {s1 s2 : Span}
    (h12 : k1 < k2) (h1 : (splitLines text).get? k1 = some s1)
    (h2 : (splitLines text).get? k2 = some s2) : s1.snd < s2.fst := by
  have hp := @splitAux_pairwise text (text.length + 1) 0
  rw [List.pairwise_iff_get] at hp
  unfold splitLines at h1 h2
  rcases List.get?_eq_some.mp h1 with ⟨hl1, hg1⟩
  rcases List.get?_eq_some.mp h2 with ⟨hl2, hg2⟩
  have := hp ⟨k1, hl1⟩ ⟨k2, hl2⟩ h12
  rw [hg1, hg2] at this
  exact this

theorem splitAux_first {text : List Nat} :
    ∀ (fuel offset : Nat) (s : Span) (rest : List Span),
      splitLinesAux text offset fuel = s :: rest → s.fst = offset := by
  intro fuel offset s rest h
  match fuel with
  | 0 => simp [splitLinesAux] at h
  | n + 1 =>
    simp only [splitLinesAux] at h
    split at h
    · simp at h
    · split at h <;> simp at h <;> rw [← h.1]

theorem lines_first {text : List Nat} {s : Span}
    (h : (splitLines text).get? 0 = some s) : s.fst = 0 := by
  unfold splitLines at h
  match hsplit : splitLinesAux text 0 (text.length + 1) with
  | [] => rw [hsplit] at h; simp at h
  | s0 :: rest =>
    rw [hsplit] at h
    simp at h
    rw [← h]
    exact splitAux_first _ 0 s0 rest hsplit

theorem lineStartD_eq {text : List Nat} {k : Nat} {s : Span}
    (h : (splitLines text).get? k = some s) :
    lineStartD text (splitLines text) k = s.fst := by
  unfold lineStartD
  rw [h]

theorem lineStartD_le_len {text : List Nat} (k : Nat) :
    lineStartD text (splitLines text) k ≤ text.length := by
  match h : (splitLines text).get? k with
  | some s =>
    rw [lineStartD_eq h]
    have := lines_wf h
    omega
  | none =>
    unfold lineStartD
    rw [h]

theorem lineEnd_le_next {text : List Nat} {k : Nat} {s : Span}
    (hk : (splitLines text).get? k = some s) :
    s.snd ≤ lineStartD text (splitLines text) (k + 1) := by
  unfold lineStartD
  match h2 : (splitLines text).get? (k + 1) with
  | some s2 => exact le_of_lt (lines_order (by omega) hk h2)
  | none => exact (lines_wf hk).2

theorem lineStartD_mono {text : List Nat} (k : Nat) :
    lineStartD text (splitLines text) k ≤
      lineStartD text (splitLines text) (k + 1) := by
  match hk : (splitLines text).get? k with
  | some s =>
    rw [lineStartD_eq hk]
    have := lineEnd_le_next hk
    have := (lines_wf hk).1
    omega
  | none =>
    have hk1 : (splitLines text).get? (k + 1) = none := by
      rw [List.get?_eq_none] at hk ⊢
      omega
    unfold lineStartD
    rw [hk, hk1]

theorem between_lines_nl {text : List Nat} {k : Nat} {s : Span}
    (hk : (splitLines text).get? k = some s) {i b : Nat}
    (hi1 : s.snd ≤ i) (hi2 : i < lineStartD text (splitLines text) (k + 1))
    (hb : text.get? i = some b) : isNl b = true := by
  refine splitAux_gap (text.length + 1) 0 (by omega) i b (by omega) hb ?_
  intro s' hs'
  obtain ⟨m, hm0⟩ := List.get?_of_mem hs'
  have hm : (splitLines text).get? m = some s' := hm0
  intro ⟨hle, hlt⟩
  by_cases hmk : m < k
  · have := lines_order hmk hm hk
    have := (lines_wf hk).1
    omega
  · by_cases hmk2 : m = k
    · subst hmk2
      rw [hm] at hk
      cases hk
      omega
    · have hmk3 : k + 1 ≤ m := by omega
      match h2 : (splitLines text).get? (k + 1) with
      | some s2 =>
        rw [lineStartD_eq h2] at hi2
        by_cases hm2 : m = k + 1
        · subst hm2
          rw [hm] at h2
          cases h2
          omega
        · have := lines_order (show k + 1 < m by omega) h2 hm
          have := (lines_wf h2).1
          omega
      | none =>
        rw [List.get?_eq_none] at h2
        rcases List.get?_eq_some.mp hm with ⟨hlm, _⟩
        omega

theorem absorb_spec {text : List Nat} {lines : List Span} :
    ∀ (fuel lIndex : Nat) (testLine : List Nat) (valueEnd : Nat) (s : Span),
      lines.get? lIndex = some s → valueEnd = s.snd →
      ∃ k s', lIndex ≤ k ∧ lines.get? k = some s' ∧
        absorb text lines lIndex testLine valueEnd fuel = (k, s'.snd) := by
  intro fuel
  induction fuel with
  | zero =>
    intro lIndex tl ve s hs hve
    exact ⟨lIndex, s, le_refl _, hs, by simp [absorb, hve]⟩
  | succ n ih =>
    intro lIndex tl ve s hs hve
    simp only [absorb]
    split
    · match hnext : lines.get? (lIndex + 1) with
      | some nextSpan =>
        obtain ⟨k, s', hk, hs', heq⟩ :=
          ih (lIndex + 1) (sliceU text nextSpan.fst nextSpan.snd)
            nextSpan.snd nextSpan hnext rfl
        exact ⟨k, s', by omega, hs', heq⟩
      | none => exact ⟨lIndex, s, le_refl _, hs, by rw [hve]⟩
    · exact ⟨lIndex, s, le_refl _, hs, by rw [hve]⟩

theorem byteToOp_ne_set {b : Nat} (h : ¬ byteToOp b = KvpOp.set) :
    b = 43 ∨ b = 46 ∨ b = 45 ∨ b = 33 := by
  unfold byteToOp at h
  split_ifs at h with h1 h2 h3 h4 <;> simp_all

theorem coveredBy_cons_false {d : Directive} {ds : List Directive} {i : Nat}
    (h : coveredBy (d :: ds) i = false) :
    ¬(d.dspan.fst ≤ i ∧ i < d.dspan.snd) ∧ coveredBy ds i = false := by
  simp only [coveredBy, List.any_cons, Bool.or_eq_false_iff,
    Bool.and_eq_false_iff] at h
  constructor
  · intro ⟨h1, h2⟩
    rcases h.1 with hh | hh <;> simp at hh <;> omega
  · exact h.2

theorem lineWsRun_le {text : List Nat} {k : Nat} {s : Span}
    (hk : (splitLines text).get? k = some s) :
    ((text.drop s.fst).takeWhile isSpTab).length ≤ s.snd - s.fst := by
  by_contra hgt
  push_neg at hgt
  have hwf := lines_wf hk
  have hlen : ((text.drop s.fst).takeWhile isSpTab).length ≤
      (text.drop s.fst).length :=
    (List.takeWhile_sublist _).length_le
  rw [List.length_drop] at hlen
  have hsndlt : s.snd < text.length := by omega
  -- the byte at s.snd would have to be a space/tab, but it is a newline
  obtain ⟨b, hb⟩ : ∃ b, text.get? s.snd = some b := by
    rcases h : text.get? s.snd with _ | b
    · rw [List.get?_eq_none] at h
      omega
    · exact ⟨b, rfl⟩
  have hnl : isNl b = true := by
    refine between_lines_nl hk (le_refl _) ?_ hb
    match h2 : (splitLines text).get? (k + 1) with
    | some s2 =>
      rw [lineStartD_eq h2]
      exact lines_order (by omega) hk h2
    | none =>
      unfold lineStartD
      rw [h2]
      show s.snd < text.length
      omega
  have hst : isSpTab b = true := by
    refine takeWhile_get (text.drop s.fst) (s.snd - s.fst) b (by omega) ?_
    rw [List.get?_drop]
    have : s.fst + (s.snd - s.fst) = s.snd := by omega
    rw [this]
    exact hb
  simp [isNl, isSpTab] at hnl hst
  rcases hnl with h | h <;> rcases hst with h2 | h2 <;> omega

theorem gap_of_nl {b : Nat} (h : isNl b = true) : isGapByte b = true := by
  simp [isGapByte, h]

theorem gap_of_sptab {b : Nat} (h : isSpTab b = true) : isGapByte b = true := by
  simp [isGapByte, h]

theorem gap_of_op {b : Nat} (h : ¬ byteToOp b = KvpOp.set) :
    isGapByte b = true := by
  rcases byteToOp_ne_set h with h' | h' | h' | h' <;> simp [isGapByte, h']

theorem dirsAux_inv {text : List Nat} :
    ∀ (fuel lIndex : Nat),
      (splitLines text).length - lIndex < fuel →
      (∀ d ∈ dirsAux text (splitLines text) lIndex fuel,
        lineStartD text (splitLines text) lIndex ≤ d.dspan.fst ∧
        d.dspan.fst ≤ d.dspan.snd ∧ d.dspan.snd ≤ text.length) ∧
      List.Pairwise (fun a b : Span => a.snd ≤ b.fst)
        ((dirsAux text (splitLines text) lIndex fuel).map Directive.dspan) ∧
      (∀ i b, lineStartD text (splitLines text) lIndex ≤ i →
        text.get? i = some b →
        coveredBy (dirsAux text (splitLines text) lIndex fuel) i = false →
        isGapByte b = true) := by
  intro fuel
  induction fuel with
  | zero => intro lIndex h; omega
  | succ n ih =>
    intro lIndex hfuel
    match hsp : (splitLines text).get? lIndex with
    | none =>
      have hd : dirsAux text (splitLines text) lIndex (n + 1) = [] := by
        simp only [dirsAux]
        rw [hsp]
      rw [hd]
      have hstart : lineStartD text (splitLines text) lIndex = text.length := by
        unfold lineStartD
        rw [hsp]
      refine ⟨by simp, by simp, ?_⟩
      intro i b hi hb _
      rw [hstart] at hi
      rcases List.get?_eq_some.mp hb with ⟨hlt, _⟩
      omega
    | some span =>
      have hlen : lIndex < (splitLines text).length := by
        rcases List.get?_eq_some.mp hsp with ⟨hlt, _⟩
        exact hlt
      have hfuel2 : (splitLines text).length - (lIndex + 1) < n := by omega
      have hwf := lines_wf hsp
      have hstart := lineStartD_eq hsp
      have hnext := lineEnd_le_next hsp
      by_cases hhdr : (sliceU text span.fst span.snd).head? = some 91 ∧
          (sliceU text span.fst span.snd).getLast? = some 93
      · -- section header branch
        obtain ⟨ihA, ihB, ihC⟩ := ih (lIndex + 1) hfuel2
        have hd : dirsAux text (splitLines text) lIndex (n + 1) =
            Directive.sectionHeader span ⟨span.fst + 1, span.snd - 1⟩ ::
              dirsAux text (splitLines text) (lIndex + 1) n := by
          simp only [dirsAux]
          rw [hsp]
          simp only []
          rw [if_pos hhdr]
        rw [hd]
        refine ⟨?_, ?_, ?_⟩
        · intro d hd2
          rcases List.mem_cons.mp hd2 with rfl | hd2
          · simp only [Directive.dspan]
            rw [hstart]
            exact ⟨le_refl _, hwf.1, hwf.2⟩
          · have := ihA d hd2
            rw [hstart]
            omega
        · rw [List.map_cons]
          refine List.Pairwise.cons ?_ ihB
          intro sp2 hsp2
          rcases List.mem_map.mp hsp2 with ⟨d2, hd2, rfl⟩
          have := ihA d2 hd2
          show span.snd ≤ (Directive.dspan d2).fst
          omega
        · intro i b hi hb hunc
          obtain ⟨hnc, hunc2⟩ := coveredBy_cons_false hunc
          simp only [Directive.dspan] at hnc
          rw [hstart] at hi
          by_cases hin : i < span.snd
          · exact absurd ⟨hi, hin⟩ hnc
          · push_neg at hin
            by_cases hin2 : i <
                lineStartD text (splitLines text) (lIndex + 1)
            · exact gap_of_nl (between_lines_nl hsp hin hin2 hb)
            · push_neg at hin2
              exact ihC i b hin2 hb hunc2
      · -- not a header
        match hfind : List.findIdx? (· = 61)
            (sliceU text (span.fst +
              ((text.drop span.fst).takeWhile isSpTab).length) span.snd) with
        | some p =>
          -- kvp branch
          obtain ⟨k, s', hk_ge, hs'k, habs⟩ := absorb_spec
            ((splitLines text).length + 1) lIndex
            (sliceU text (span.fst +
              ((text.drop span.fst).takeWhile isSpTab).length) span.snd)
            span.snd span hsp rfl
          have hfuelk : (splitLines text).length - (k + 1) < n := by omega
          obtain ⟨ihA, ihB, ihC⟩ := ih (k + 1) hfuelk
          have hrun_le := lineWsRun_le hsp
          have ht0_le : span.fst +
              ((text.drop span.fst).takeWhile isSpTab).length ≤ span.snd := by
            omega
          have htl_len : (sliceU text (span.fst +
              ((text.drop span.fst).takeWhile isSpTab).length) span.snd).length
              = span.snd - (span.fst +
                ((text.drop span.fst).takeWhile isSpTab).length) :=
            sliceU_length ht0_le hwf.2
          have hp_lt : p < span.snd - (span.fst +
              ((text.drop span.fst).takeWhile isSpTab).length) := by
            obtain ⟨⟨bp, hbp, _⟩, _⟩ := findIdx?_some_spec _ _ hfind
            rcases List.get?_eq_some.mp hbp with ⟨hlt, _⟩
            rw [htl_len] at hlt
            exact hlt
          have hsnd_le : span.snd ≤ s'.snd := by
            by_cases hkeq : k = lIndex
            · subst hkeq
              rw [hsp] at hs'k
              cases hs'k
              exact le_refl _
            · have hord := lines_order (show lIndex < k by omega) hsp hs'k
              have := (lines_wf hs'k).1
              omega
          have hnextk := lineEnd_le_next hs'k
          have hs'wf := lines_wf hs'k
          -- byte at t0 and minimality of p
          have ht0_lt : span.fst +
              ((text.drop span.fst).takeWhile isSpTab).length < span.snd := by
            omega
          obtain ⟨b0, hb0⟩ : ∃ b0, byteAt text (span.fst +
              ((text.drop span.fst).takeWhile isSpTab).length) = some b0 := by
            rcases h0 : byteAt text (span.fst +
                ((text.drop span.fst).takeWhile isSpTab).length) with _ | b0
            · unfold byteAt at h0
              rw [List.get?_eq_none] at h0
              omega
            · exact ⟨b0, rfl⟩
          have hp1 : ¬ byteToOp ((byteAt text (span.fst +
              ((text.drop span.fst).takeWhile isSpTab).length)).getD 0) =
                KvpOp.set → 1 ≤ p := by
            intro hop
            by_contra hp0
            push_neg at hp0
            have hp0' : p = 0 := by omega
            subst hp0'
            obtain ⟨⟨bp, hbp, hbeq⟩, _⟩ := findIdx?_some_spec _ _ hfind
            rw [sliceU_get? (by omega), Nat.add_zero] at hbp
            have hb0' : text.get? (span.fst +
                ((text.drop span.fst).takeWhile isSpTab).length) = some b0 :=
              hb0
            rw [hb0'] at hbp
            have hbp2 : b0 = bp := by injection hbp
            simp only [decide_eq_true_eq] at hbeq
            rw [hb0] at hop
            simp only [Option.getD_some] at hop
            rw [hbp2, hbeq] at hop
            simp [byteToOp] at hop
          have hd : dirsAux text (splitLines text) lIndex (n + 1) =
              Directive.kvp
                  ⟨(if byteToOp ((byteAt text (span.fst +
                      ((text.drop span.fst).takeWhile isSpTab).length)).getD 0)
                        = KvpOp.set
                    then span.fst +
                      ((text.drop span.fst).takeWhile isSpTab).length
                    else span.fst +
                      ((text.drop span.fst).takeWhile isSpTab).length + 1),
                    s'.snd⟩
                  ⟨(if byteToOp ((byteAt text (span.fst +
                      ((text.drop span.fst).takeWhile isSpTab).length)).getD 0)
                        = KvpOp.set
                    then span.fst +
                      ((text.drop span.fst).takeWhile isSpTab).length
                    else span.fst +
                      ((text.drop span.fst).takeWhile isSpTab).length + 1),
                    rightTrimRelease text ((span.fst +
                      ((text.drop span.fst).takeWhile isSpTab).length) + p)⟩
                  ⟨(span.fst +
                      ((text.drop span.fst).takeWhile isSpTab).length) + p + 1,
                    s'.snd⟩
                  (byteToOp ((byteAt text (span.fst +
                    ((text.drop span.fst).takeWhile isSpTab).length)).getD 0))
                :: dirsAux text (splitLines text) (k + 1) n := by
            simp only [dirsAux]
            rw [hsp]
            try simp only []
            rw [if_neg hhdr]
            try simp only []
            rw [hfind]
            try simp only []
            rw [habs]
          rw [hd]
          set t0 := span.fst +
            ((text.drop span.fst).takeWhile isSpTab).length with ht0def
          set iS := if byteToOp ((byteAt text t0).getD 0) = KvpOp.set
            then t0 else t0 + 1 with hiSdef
          have hiSb : t0 ≤ iS ∧ iS ≤ t0 + p := by
            by_cases hop : byteToOp ((byteAt text t0).getD 0) = KvpOp.set
            · rw [hiSdef, if_pos hop]
              omega
            · rw [hiSdef, if_neg hop]
              have := hp1 hop
              omega
          refine ⟨?_, ?_, ?_⟩
          · intro d hd2
            rcases List.mem_cons.mp hd2 with rfl | hd2
            · simp only [Directive.dspan]
              rw [hstart]
              refine ⟨by omega, by omega, hs'wf.2⟩
            · have := ihA d hd2
              rw [hstart]
              omega
          · rw [List.map_cons]
            refine List.Pairwise.cons ?_ ihB
            intro sp2 hsp2
            rcases List.mem_map.mp hsp2 with ⟨d2, hd2, rfl⟩
            have := ihA d2 hd2
            show s'.snd ≤ (Directive.dspan d2).fst
            omega
          · intro i b hi hb hunc
            obtain ⟨hnc, hunc2⟩ := coveredBy_cons_false hunc
            simp only [Directive.dspan] at hnc
            rw [hstart] at hi
            by_cases hi1 : i < t0
            · -- leading blanks
              have hidx : i - span.fst <
                  ((text.drop span.fst).takeWhile isSpTab).length := by
                omega
              refine gap_of_sptab (takeWhile_get (text.drop span.fst)
                (i - span.fst) b hidx ?_)
              rw [List.get?_drop,
                show span.fst + (i - span.fst) = i from by omega]
              exact hb
            · push_neg at hi1
              by_cases hi2 : i < iS
              · -- the consumed sigil byte
                by_cases hop : byteToOp ((byteAt text t0).getD 0) =
                    KvpOp.set
                · rw [hiSdef, if_pos hop] at hi2
                  omega
                · rw [hiSdef, if_neg hop] at hi2
                  have hit0 : i = t0 := by omega
                  subst hit0
                  have hbb : byteAt text t0 = some b := hb
                  rw [hbb] at hop
                  exact gap_of_op (by simpa using hop)
              · push_neg at hi2
                by_cases hi3 : i < s'.snd
                · exact absurd ⟨hi2, hi3⟩ hnc
                · push_neg at hi3
                  by_cases hi4 : i <
                      lineStartD text (splitLines text) (k + 1)
                  · exact gap_of_nl (between_lines_nl hs'k hi3 hi4 hb)
                  · push_neg at hi4
                    exact ihC i b hi4 hb hunc2
        | none =>
          by_cases hblank : (sliceU text span.fst span.snd).all
              (fun c => isNl c || isSpTab c) = true
          · -- blank line: skipped
            obtain ⟨ihA, ihB, ihC⟩ := ih (lIndex + 1) hfuel2
            have hd : dirsAux text (splitLines text) lIndex (n + 1) =
                dirsAux text (splitLines text) (lIndex + 1) n := by
              simp only [dirsAux]
              rw [hsp]
              try simp only []
              rw [if_neg hhdr]
              try simp only []
              rw [hfind]
              try simp only []
              rw [if_pos hblank]
            rw [hd]
            refine ⟨?_, ihB, ?_⟩
            · intro d hd2
              have := ihA d hd2
              rw [hstart]
              omega
            · intro i b hi hb hunc
              rw [hstart] at hi
              by_cases hin : i < span.snd
              · have hidx : i - span.fst < span.snd - span.fst := by omega
                have hgl : (sliceU text span.fst span.snd).get?
                    (i - span.fst) = some b := by
                  rw [sliceU_get? hidx,
                    show span.fst + (i - span.fst) = i from by omega]
                  exact hb
                have hmem : b ∈ sliceU text span.fst span.snd :=
                  List.get?_mem hgl
                have hprop := List.all_eq_true.mp hblank b hmem
                simp only [Bool.or_eq_true] at hprop
                rcases hprop with h' | h'
                · exact gap_of_nl h'
                · exact gap_of_sptab h'
              · push_neg at hin
                by_cases hin2 : i <
                    lineStartD text (splitLines text) (lIndex + 1)
                · exact gap_of_nl (between_lines_nl hsp hin hin2 hb)
                · push_neg at hin2
                  exact ihC i b hin2 hb hunc
          · -- unknown branch
            obtain ⟨ihA, ihB, ihC⟩ := ih (lIndex + 1) hfuel2
            have hd : dirsAux text (splitLines text) lIndex (n + 1) =
                Directive.unknown span
                    (if lIndex = 0 then none
                     else (splitLines text).get? (lIndex - 1)) ::
                  dirsAux text (splitLines text) (lIndex + 1) n := by
              simp only [dirsAux]
              rw [hsp]
              try simp only []
              rw [if_neg hhdr]
              try simp only []
              rw [hfind]
              try simp only []
              rw [if_neg hblank]
            rw [hd]
            refine ⟨?_, ?_, ?_⟩
            · intro d hd2
              rcases List.mem_cons.mp hd2 with rfl | hd2
              · simp only [Directive.dspan]
                rw [hstart]
                exact ⟨le_refl _, hwf.1, hwf.2⟩
              · have := ihA d hd2
                rw [hstart]
                omega
            · rw [List.map_cons]
              refine List.Pairwise.cons ?_ ihB
              intro sp2 hsp2
              rcases List.mem_map.mp hsp2 with ⟨d2, hd2, rfl⟩
              have := ihA d2 hd2
              show span.snd ≤ (Directive.dspan d2).fst
              omega
            · intro i b hi hb hunc
              obtain ⟨hnc, hunc2⟩ := coveredBy_cons_false hunc
              simp only [Directive.dspan] at hnc
              rw [hstart] at hi
              by_cases hin : i < span.snd
              · exact absurd ⟨hi, hin⟩ hnc
              · push_neg at hin
                by_cases hin2 : i <
                    lineStartD text (splitLines text) (lIndex + 1)
                · exact gap_of_nl (between_lines_nl hsp hin hin2 hb)
                · push_neg at hin2
                  exact ihC i b hin2 hb hunc2

theorem reassemble_sorted {text : List Nat} :
    ∀ (spans : List Span) (cursor : Nat),
      cursor ≤ text.length →
      (∀ s ∈ spans, cursor ≤ s.fst ∧ s.fst ≤ s.snd ∧ s.snd ≤ text.length) →
      List.Pairwise (fun a b : Span => a.snd ≤ b.fst) spans →
      reassemble text cursor spans = sliceU text cursor text.length := by
  intro spans
  induction spans with
  | nil => intro cursor _ _ _; rfl
  | cons s rest ihs =>
    intro cursor hc hall hpw
    have hs := hall s (List.mem_cons_self _ _)
    rcases List.pairwise_cons.mp hpw with ⟨hhead, htail⟩
    simp only [reassemble]
    rw [ihs s.snd hs.2.2 (fun s2 h2 => ⟨hhead s2 h2,
      (hall s2 (List.mem_cons_of_mem _ h2)).2.1,
      (hall s2 (List.mem_cons_of_mem _ h2)).2.2⟩) htail]
    rw [List.append_assoc, sliceU_append hs.2.1 hs.2.2,
      sliceU_append hs.1 (hs.2.1.trans hs.2.2)]

theorem splitLines_first_exists {text : List Nat} (h : 0 < text.length) :
    ∃ s0, (splitLines text).get? 0 = some s0 := by
  unfold splitLines
  match hfuel : text.length + 1 with
  | 0 => omega
  | m + 1 =>
    simp only [splitLinesAux]
    rw [if_neg (by omega)]
    match List.findIdx? isNl (text.drop 0) with
    | some p => exact ⟨_, rfl⟩
    | none => exact ⟨_, rfl⟩

/-- C7 counterexample: for the input `+a=b`, byte 0 (the `+` sigil) is a
gap byte — it lies outside every directive's top-level span — yet it is
not blank/whitespace. -/
theorem c7_counterexample :
    from_text (strBytes "+a=b") =
      [.kvp ⟨1, 4⟩ ⟨1, 2⟩ ⟨3, 4⟩ .insertUnique] ∧
    coveredBy (from_text (strBytes "+a=b")) 0 = false ∧
    byteAt (strBytes "+a=b") 0 = some 43 ∧ isWs6 43 = false := by
  refine ⟨by decide, by decide, by decide, by decide⟩

/-- C7 amended: directive top-level spans are pairwise ordered and
disjoint, well-formed and within the input; reassembling the spans with
the gap bytes reconstructs the input; and every gap byte is whitespace
(space, tab, CR, LF) or one of the operation sigil bytes `+ . - !` — not
necessarily blank/whitespace. -/
theorem c7_amended_coverage :
    ∀ text : List Nat,
      List.Pairwise (fun a b : Span => a.snd ≤ b.fst)
        ((from_text text).map Directive.dspan) ∧
      (∀ d ∈ from_text text,
        d.dspan.fst ≤ d.dspan.snd ∧ d.dspan.snd ≤ text.length) ∧
      reassemble text 0 ((from_text text).map Directive.dspan) = text ∧
      (∀ i b, text.get? i = some b → coveredBy (from_text text) i = false →
        isGapByte b = true) := by
  intro text
  have hlenlines : (splitLines text).length ≤ text.length + 1 := by
    have := @splitAux_length text (text.length + 1) 0
    exact this
  have hfuel : (splitLines text).length - 0 < text.length + 2 := by omega
  obtain ⟨hA, hB, hC⟩ := @dirsAux_inv text (text.length + 2) 0 hfuel
  have hft : from_text text =
      dirsAux text (splitLines text) 0 (text.length + 2) := rfl
  refine ⟨by rw [hft]; exact hB, ?_, ?_, ?_⟩
  · intro d hd
    rw [hft] at hd
    exact (hA d hd).2
  · rw [hft]
    have := @reassemble_sorted text
      ((dirsAux text (splitLines text) 0 (text.length + 2)).map
        Directive.dspan) 0 (by omega) ?_ hB
    · rw [this, sliceU_full]
    · intro s hsm
      rcases List.mem_map.mp hsm with ⟨d, hd, rfl⟩
      exact ⟨by omega, (hA d hd).2⟩
  · intro i b hb hunc
    rw [hft] at hunc
    have hpos : 0 < text.length := by
      rcases List.get?_eq_some.mp hb with ⟨hlt, _⟩
      omega
    obtain ⟨s0, hs0⟩ := splitLines_first_exists hpos
    have hz : lineStartD text (splitLines text) 0 = 0 := by
      rw [lineStartD_eq hs0]
      exact lines_first hs0
    exact hC i b (by omega) hb hunc

/-- Witness for C7 amended: at the input `+a=b` the reassembly equation
holds and the `+` gap byte is accounted for by the sigil clause. -/
theorem c7_witness :
    reassemble (strBytes "+a=b") 0
        ((from_text (strBytes "+a=b")).map Directive.dspan) =
      strBytes "+a=b" ∧ isGapByte 43 = true :=
  ⟨(c7_amended_coverage (strBytes "+a=b")).2.2.1,
    (c7_amended_coverage (strBytes "+a=b")).2.2.2 0 43 (by decide) (by decide)⟩
